import Mathlib

/-!
Verification of the hash-table core of `cc4.h` (a generic Robin Hood
open-addressing map).  The C source is shallowly embedded: buckets become
`Option (key x element x displacement)` values (a stored probe length of `0`
means an empty bucket, `d + 1` means an occupied bucket whose slot is `d`
probes past its home slot), `size_t` arithmetic becomes `Nat` arithmetic,
`double` load factors become exact rationals, the allocator becomes an
explicit success flag plus a fresh allocation identifier, and the
`while (true)` probe loops become fuel-indexed recursions (a `none` result
corresponds to the C loop never reaching its exit; all theorems prove the
fuel used by the embedded entry points suffices under the stated hypotheses).
Destructor callbacks are modelled by identifiers together with the trace of
values they get applied to.
-/

namespace CC4

/-- A bucket: `none` is an empty slot (stored probe length 0); `some (k, e, d)`
holds key `k`, element `e`, and displacement `d` from the key's home slot
(stored probe length `d + 1`, as in the source where probe length N>0 means
N-1 probes from home). -/
abbrev Bucket (κ ε : Type) := Option (κ × ε × ℕ)

/-- Stored probe length of a bucket: 0 for empty, displacement+1 otherwise. -/
def plenOf {κ ε : Type} : Bucket κ ε → ℕ
  | none => 0
  | some (_, _, d) => d + 1

/-- The map header plus bucket array (`cc4_map_hdr_ty` and the trailing
buckets).  `allocId` identifies the heap allocation backing the table, so that
pointer identity across rehashes can be stated; the placeholder uses id 0. -/
structure Table (κ ε : Type) where
  size : ℕ
  cap : ℕ
  allocId : ℕ
  buckets : List (Bucket κ ε)
deriving DecidableEq

/-- Placeholder for a map with no allocated memory (`cc4_map_placeholder`). -/
def cc4_map_placeholder (κ ε : Type) : Table κ ε := ⟨0, 0, 0, []⟩

def cc4_map_size {κ ε : Type} (T : Table κ ε) : ℕ := T.size

def cc4_map_cap {κ ε : Type} (T : Table κ ε) : ℕ := T.cap

def cc4_map_is_placeholder {κ ε : Type} (T : Table κ ε) : Bool := T.cap = 0

/-- Bucket at index `i` (reads past the array yield an empty bucket; the
embedding's theorems keep every access in range). -/
def bkt {κ ε : Type} (T : Table κ ε) (i : ℕ) : Bucket κ ε := T.buckets.getD i none

/-- Stored probe length at index `i` (`*cc4_map_probelen( cntr, i, .. )`). -/
def plenAt {κ ε : Type} (T : Table κ ε) (i : ℕ) : ℕ := plenOf (bkt T i)

/-- Key stored at index `i`, if the bucket is occupied. -/
def keyAt {κ ε : Type} (T : Table κ ε) (i : ℕ) : Option κ := (bkt T i).map (·.1)

/-- Overwrite the bucket at index `i`. -/
def setBkt {κ ε : Type} (T : Table κ ε) (i : ℕ) (b : Bucket κ ε) : Table κ ε :=
  { T with buckets := T.buckets.set i b }

/-- Index masking `x & (cap - 1)`, as the source computes slots modulo the
power-of-two capacity. -/
def cc4_mask (cap x : ℕ) : ℕ := x &&& (cap - 1)

/-! ### Default string hash (`cc4_hash_c_string`) and the FNV-1a reference

The C strings are modelled as the list of their (nonzero) bytes; `size_t`
multiplication and xor wrap at the word size, hence the explicit `% 2 ^ 32`
and `% 2 ^ 64`. -/

/-- The source's `cc4_hash_c_string` for 32-bit `size_t`: starts from
`0x01000193` and multiplies by `0x811c9dc5` (exactly as lines 4083-4091 of
`cc4.h`). -/
def cc4_hash_c_string_32 (s : List ℕ) : ℕ :=
  s.foldl (fun hash b => ((b ^^^ hash) * 0x811c9dc5) % 2 ^ 32) 0x01000193

/-- The source's `cc4_hash_c_string` for 64-bit `size_t`: starts from
`0xcbf29ce484222325` and multiplies by `0x100000001b3`. -/
def cc4_hash_c_string_64 (s : List ℕ) : ℕ :=
  s.foldl (fun hash b => ((b ^^^ hash) * 0x100000001b3) % 2 ^ 64) 0xcbf29ce484222325

/-- Modelled from the spec: 32-bit FNV-1a (offset basis `0x811c9dc5`, prime
`0x01000193`): start from the offset basis, xor each byte in, multiply by the
prime. -/
def fnv1a_32 (s : List ℕ) : ℕ :=
  s.foldl (fun hash b => ((hash ^^^ b) * 0x01000193) % 2 ^ 32) 0x811c9dc5

/-- Modelled from the spec: 64-bit FNV-1a (offset basis `0xcbf29ce484222325`,
prime `0x100000001b3`). -/
def fnv1a_64 (s : List ℕ) : ℕ :=
  s.foldl (fun hash b => ((hash ^^^ b) * 0x100000001b3) % 2 ^ 64) 0xcbf29ce484222325

/-- The 64-bit variant of the source hash is exactly 64-bit FNV-1a (the xor is
commutative, the constants agree). -/
theorem cc4_hash_c_string_64_eq_fnv1a (s : List ℕ) :
    cc4_hash_c_string_64 s = fnv1a_64 s := by
  have h : (fun (hash b : ℕ) => ((b ^^^ hash) * 0x100000001b3) % 2 ^ 64)
      = fun (hash b : ℕ) => ((hash ^^^ b) * 0x100000001b3) % 2 ^ 64 := by
    funext hash b
    rw [Nat.xor_comm]
  unfold cc4_hash_c_string_64 fnv1a_64
  rw [h]

/-- The 32-bit variant of the source hash differs from 32-bit FNV-1a on the
one-byte string "a" (byte 0x61): the source swapped the offset basis and the
prime. -/
theorem cc4_hash_c_string_32_ne_fnv1a :
    cc4_hash_c_string_32 [0x61] ≠ fnv1a_32 [0x61] := by decide

/-! ### Operations of the map core

Every `while (true)` loop of the source becomes a fuel-indexed recursion whose
`none` result stands for the C loop failing to reach an exit; each embedded
entry point supplies a concrete fuel, and the theorems below prove that fuel
is never exhausted under their hypotheses, so the embedded functions and the
C functions agree there. -/

section Ops

variable {κ ε : Type} [DecidableEq κ]

/-- Lookup loop of `cc4_map_get`: walk forward while the local probe length
counter does not exceed the stored probe length; report the slot on a key
match at equal probe length. -/
def cc4_map_get_loop (T : Table κ ε) (key : κ) : ℕ → ℕ → ℕ → Option (Option ℕ)
  | 0, _, _ => none
  | fuel + 1, i, probelen =>
    if probelen ≤ plenAt T i then
      if probelen = plenAt T i ∧ keyAt T i = some key then some (some i)
      else cc4_map_get_loop T key fuel (cc4_mask T.cap (i + 1)) (probelen + 1)
    else some none

/-- Embeds `cc4_map_get`.  `some (some i)` is a pointer-iterator to bucket
`i`, `some none` is the C NULL ("no such element"). -/
def cc4_map_get (hash : κ → ℕ) (T : Table κ ε) (key : κ) : Option (Option ℕ) :=
  if cc4_map_size T = 0 then some none
  else cc4_map_get_loop T key (T.cap + 1) (cc4_mask T.cap (hash key)) 1

/-- The inner placement loop that both `cc4_map_insert_raw` and
`cc4_map_insert_raw_unique` contain verbatim (entered once a bucket is taken):
write the candidate into the first empty bucket; swap it with any poorer
resident met on the way.  `ret` is the slot recorded for the original key
(`to_return`). -/
def cc4_map_insert_place : ℕ → Table κ ε → κ → ε → ℕ → ℕ → ℕ → Option (Table κ ε × ℕ)
  | 0, _, _, _, _, _, _ => none
  | fuel + 1, T, key, el, i, probelen, ret =>
    if plenAt T i = 0 then
      some (setBkt T i (some (key, el, probelen - 1)), ret)
    else if plenAt T i < probelen then
      match bkt T i with
      | some (k2, e2, d2) =>
          cc4_map_insert_place fuel (setBkt T i (some (key, el, probelen - 1))) k2 e2
            (cc4_mask T.cap (i + 1)) (d2 + 1 + 1) ret
      | none => none
    else
      cc4_map_insert_place fuel T key el (cc4_mask T.cap (i + 1)) (probelen + 1)
        ret

/-- Outer loop of `cc4_map_insert_raw`: on `probelen > stored` the bucket is
taken (empty or stolen) and `size` is incremented before the placement loop;
on a key match at equal probe length the element (and key) are overwritten in
place when `replace` is set.  The key/element destructor calls of the replace
branch do not affect the table state and are not traced here. -/
def cc4_map_insert_raw_loop (replace : Bool) :
    ℕ → Table κ ε → κ → ε → ℕ → ℕ → Option (Table κ ε × ℕ)
  | 0, _, _, _, _, _ => none
  | fuel + 1, T, key, el, i, probelen =>
    if plenAt T i < probelen then
      cc4_map_insert_place (T.cap + 1) { T with size := T.size + 1 } key el i probelen i
    else if probelen = plenAt T i ∧ keyAt T i = some key then
      some ((if replace then setBkt T i (some (key, el, probelen - 1)) else T), i)
    else
      cc4_map_insert_raw_loop replace fuel T key el (cc4_mask T.cap (i + 1)) (probelen + 1)

/-- Embeds `cc4_map_insert_raw` (assumes the map has an empty bucket, as the
source comments state; the returned index is the slot holding the supplied
key). -/
def cc4_map_insert_raw (hash : κ → ℕ) (T : Table κ ε) (el : ε) (key : κ) (replace : Bool) :
    Option (Table κ ε × ℕ) :=
  cc4_map_insert_raw_loop replace (T.cap + 1) T key el (cc4_mask T.cap (hash key)) 1

/-- Outer loop of `cc4_map_insert_raw_unique`: identical to the raw loop minus
the key-equality branch. -/
def cc4_map_insert_raw_unique_loop :
    ℕ → Table κ ε → κ → ε → ℕ → ℕ → Option (Table κ ε × ℕ)
  | 0, _, _, _, _, _ => none
  | fuel + 1, T, key, el, i, probelen =>
    if plenAt T i < probelen then
      cc4_map_insert_place (T.cap + 1) { T with size := T.size + 1 } key el i probelen i
    else
      cc4_map_insert_raw_unique_loop fuel T key el (cc4_mask T.cap (i + 1)) (probelen + 1)

/-- Embeds `cc4_map_insert_raw_unique` (used by rehashing only). -/
def cc4_map_insert_raw_unique (hash : κ → ℕ) (T : Table κ ε) (el : ε) (key : κ) :
    Option (Table κ ε × ℕ) :=
  cc4_map_insert_raw_unique_loop (T.cap + 1) T key el (cc4_mask T.cap (hash key)) 1

/-- Doubling loop of `cc4_map_min_cap_for_n_els` (`while( n > cap * max_load )
cap *= 2`). -/
def cc4_map_min_cap_loop (n : ℕ) (max_load : ℚ) : ℕ → ℕ → ℕ
  | 0, cap => cap
  | fuel + 1, cap =>
    if (cap : ℚ) * max_load < n then cc4_map_min_cap_loop n max_load fuel (cap * 2)
    else cap

/-- Fuel that provably suffices for the doubling loop whenever
`0 < max_load`. -/
def cc4_min_cap_fuel (n : ℕ) (max_load : ℚ) : ℕ :=
  n * ((⌈1 / max_load⌉).toNat + 1) + 1

/-- Embeds `cc4_map_min_cap_for_n_els`: 0 for `n = 0`, else the capacity
obtained from 8 by doubling while `n > cap * max_load`. -/
def cc4_map_min_cap_for_n_els (n : ℕ) (max_load : ℚ) : ℕ :=
  if n = 0 then 0 else cc4_map_min_cap_loop n max_load (cc4_min_cap_fuel n max_load) 8

/-- Embeds `cc4_map_make_rehash`: allocate a fresh zeroed table of capacity
`cap` (fresh allocation id) and re-insert every occupied bucket of `T` in
index order through the unique-insert path.  `some none` is the C NULL from a
failed allocation. -/
def cc4_map_make_rehash (hash : κ → ℕ) (T : Table κ ε) (cap : ℕ) (allocOk : Bool)
    (freshId : ℕ) : Option (Option (Table κ ε)) :=
  if allocOk then
    ((T.buckets.filterMap id).foldlM
      (fun acc p => (cc4_map_insert_raw_unique hash acc p.2.1 p.1).map Prod.fst)
      (⟨0, cap, freshId, List.replicate cap none⟩ : Table κ ε)).map some
  else some none

/-- Embeds `cc4_map_reserve`: no-op when the current capacity already reaches
`cc4_map_min_cap_for_n_els n`; otherwise rehash into that capacity (the old
table is freed only on success).  The `Bool` mirrors the success pointer. -/
def cc4_map_reserve (hash : κ → ℕ) (T : Table κ ε) (n : ℕ) (max_load : ℚ)
    (allocOk : Bool) (freshId : ℕ) : Option (Table κ ε × Bool) :=
  let cap := cc4_map_min_cap_for_n_els n max_load
  if cap ≤ T.cap then some (T, true)
  else
    match cc4_map_make_rehash hash T cap allocOk freshId with
    | none => none
    | some none => some (T, false)
    | some (some T2) => some (T2, true)

/-- Embeds `cc4_map_insert`: reserve room for `size + 1` elements whenever
`size + 1 > cap * max_load` (before any key search), propagating failure with
the table untouched, then run the raw insert.  `some (T2, some i)` is success
with the new handle and element pointer; `some (T2, none)` is the allocation
failure result. -/
def cc4_map_insert (hash : κ → ℕ) (T : Table κ ε) (el : ε) (key : κ) (replace : Bool)
    (max_load : ℚ) (allocOk : Bool) (freshId : ℕ) : Option (Table κ ε × Option ℕ) :=
  if (T.cap : ℚ) * max_load < (T.size : ℚ) + 1 then
    match cc4_map_reserve hash T (T.size + 1) max_load allocOk freshId with
    | none => none
    | some (T2, false) => some (T2, none)
    | some (T2, true) => (cc4_map_insert_raw hash T2 el key replace).map fun r => (r.1, some r.2)
  else
    (cc4_map_insert_raw hash T el key replace).map fun r => (r.1, some r.2)

/-- Backward-shift loop of `cc4_map_erase_itr`: while the next bucket holds a
probe length above 1, move it into the hole with its probe length decremented
and advance the hole. -/
def cc4_map_erase_itr_loop : ℕ → Table κ ε → ℕ → Option (Table κ ε)
  | 0, _, _ => none
  | fuel + 1, T, i =>
    if plenAt T (cc4_mask T.cap (i + 1)) ≤ 1 then some T
    else
      match bkt T (cc4_mask T.cap (i + 1)) with
      | some (k2, e2, d2) =>
          cc4_map_erase_itr_loop fuel
            (setBkt (setBkt T i (some (k2, e2, d2 - 1))) (cc4_mask T.cap (i + 1)) none)
            (cc4_mask T.cap (i + 1))
      | none => none

/-- Embeds `cc4_map_erase_itr`: empty the bucket, decrement `size` (the
destructor calls do not affect the state), then run the backward shift. -/
def cc4_map_erase_itr (T : Table κ ε) (i : ℕ) : Option (Table κ ε) :=
  cc4_map_erase_itr_loop (T.cap * T.cap + 1) (setBkt { T with size := T.size - 1 } i none) i

/-- Search loop of `cc4_map_erase` (same walk as the lookup loop; erase on a
match). -/
def cc4_map_erase_loop (T : Table κ ε) (key : κ) : ℕ → ℕ → ℕ → Option (Table κ ε × Bool)
  | 0, _, _ => none
  | fuel + 1, i, probelen =>
    if probelen ≤ plenAt T i then
      if probelen = plenAt T i ∧ keyAt T i = some key then
        (cc4_map_erase_itr T i).map fun T2 => (T2, true)
      else cc4_map_erase_loop T key fuel (cc4_mask T.cap (i + 1)) (probelen + 1)
    else some (T, false)

/-- Embeds `cc4_map_erase`; the `Bool` tells whether an element was erased. -/
def cc4_map_erase (hash : κ → ℕ) (T : Table κ ε) (key : κ) : Option (Table κ ε × Bool) :=
  if cc4_map_size T = 0 then some (T, false)
  else cc4_map_erase_loop T key (T.cap + 1) (cc4_mask T.cap (hash key)) 1

/-- Embeds `cc4_map_shrink`. -/
def cc4_map_shrink (hash : κ → ℕ) (T : Table κ ε) (max_load : ℚ) (allocOk : Bool)
    (freshId : ℕ) : Option (Table κ ε × Bool) :=
  let cap := cc4_map_min_cap_for_n_els (cc4_map_size T) max_load
  if cap = T.cap then some (T, true)
  else if cap = 0 then some (cc4_map_placeholder κ ε, true)
  else
    match cc4_map_make_rehash hash T cap allocOk freshId with
    | none => none
    | some none => some (T, false)
    | some (some T2) => some (T2, true)

/-- Embeds `cc4_map_init_clone`: an empty source (placeholder or not) yields
the placeholder with no allocation; otherwise the header and bucket array are
copied byte for byte into a fresh allocation (`none` = allocation failure). -/
def cc4_map_init_clone (src : Table κ ε) (allocOk : Bool) (freshId : ℕ) :
    Option (Table κ ε) :=
  if cc4_map_size src = 0 then some (cc4_map_placeholder κ ε)
  else if allocOk then some ⟨src.size, src.cap, freshId, src.buckets⟩
  else none

/-- A destructor-callback invocation: the identifier of the invoked callback
paired with the value it was applied to (`inl` = applied to a stored key,
`inr` = applied to a stored element). -/
abbrev DtorEvent (κ ε : Type) := ℕ × (κ ⊕ ε)

/-- The destructor-invocation trace produced when a bucket holding `( k, e )`
is destroyed: `key_dtor` applied to the key, then `el_dtor` to the element. -/
def dtorEvents (key_dtor el_dtor : Option ℕ) (k : κ) (e : ε) :
    List (DtorEvent κ ε) :=
  (match key_dtor with | some d => [(d, Sum.inl k)] | none => [])
    ++ (match el_dtor with | some d => [(d, Sum.inr e)] | none => [])

/-- One iteration of `cc4_map_clear`'s bucket loop: if bucket `i` is occupied,
the `key_dtor` parameter is applied to its key, then the `el_dtor` parameter
to its element, and the bucket is zeroed. -/
def clearStep (el_dtor key_dtor : Option ℕ)
    (acc : Table κ ε × List (DtorEvent κ ε)) (i : ℕ) :
    Table κ ε × List (DtorEvent κ ε) :=
  match bkt acc.1 i with
  | some (k, e, _) => (setBkt acc.1 i none, acc.2 ++ dtorEvents key_dtor el_dtor k e)
  | none => acc

/-- Embeds `cc4_map_clear` together with the trace of destructor invocations:
for every occupied bucket the `key_dtor` parameter is applied to the bucket's
key, then the `el_dtor` parameter to its element, and the bucket is zeroed;
finally `size` becomes 0.  Destructor callbacks are identifiers; `none` means
no destructor was supplied (the C NULL function pointer). -/
def cc4_map_clear (T : Table κ ε) (el_dtor key_dtor : Option ℕ) :
    Table κ ε × List (DtorEvent κ ε) :=
  if cc4_map_size T = 0 then (T, [])
  else
    let p := (List.range T.cap).foldl (clearStep el_dtor key_dtor) (T, [])
    ({ p.1 with size := 0 }, p.2)

/-- Embeds `cc4_map_cleanup` followed by the handle re-initialisation its API
macro performs: the source forwards its destructor arguments to
`cc4_map_clear` in the order `( key_dtor, el_dtor )` — swapped relative to
`cc4_map_clear`'s `( el_dtor, key_dtor )` parameters — then frees the buffer
(modelled by yielding the placeholder). -/
def cc4_map_cleanup (T : Table κ ε) (el_dtor key_dtor : Option ℕ) :
    Table κ ε × List (DtorEvent κ ε) :=
  let p := cc4_map_clear T key_dtor el_dtor
  (cc4_map_placeholder κ ε, p.2)

/-- Folds `cc4_map_insert` (with replace) over a list of key/element pairs,
starting from the placeholder, with a never-failing allocator. -/
def cc4_map_insert_seq (hash : κ → ℕ) (max_load : ℚ) (ps : List (κ × ε)) :
    Option (Table κ ε) :=
  ps.foldlM (fun T p => (cc4_map_insert hash T p.2 p.1 true max_load true 1).map Prod.fst)
    (cc4_map_placeholder κ ε)

end Ops

/-! ### Bucket memory layout and pointer-iterators

The packed `uint64_t` layout descriptor is modelled by its four fields (key
size and the three padding bytes); pointers are (allocation id, byte offset)
pairs, `cc4_map_hdr_size` is `sizeof( cc4_map_hdr_ty )` and
`cc4_probelen_size` is `sizeof( cc4_probelen_ty )` on an LP64 build. -/

/-- The fields packed into the source's `uint64_t` layout word. -/
structure Layout where
  keySize : ℕ
  keyPad : ℕ
  plenPad : ℕ
  bucketPad : ℕ
deriving DecidableEq

def cc4_probelen_size : ℕ := 4

def cc4_map_hdr_size : ℕ := 16

def CC4_KEY_OFFSET (el_size : ℕ) (L : Layout) : ℕ := el_size + L.keyPad

def CC4_PROBELEN_OFFSET (el_size : ℕ) (L : Layout) : ℕ :=
  CC4_KEY_OFFSET el_size L + L.keySize + L.plenPad

def CC4_BUCKET_SIZE (el_size : ℕ) (L : Layout) : ℕ :=
  CC4_PROBELEN_OFFSET el_size L + cc4_probelen_size + L.bucketPad

/-- A pointer: the identifier of the heap allocation it points into together
with its byte offset from the allocation's base. -/
abbrev Ptr := ℕ × ℕ

/-- Address of bucket `i` (`cc4_map_el`). -/
def cc4_map_el_ptr {κ ε : Type} (T : Table κ ε) (i el_size : ℕ) (L : Layout) : Ptr :=
  (T.allocId, cc4_map_hdr_size + CC4_BUCKET_SIZE el_size L * i)

/-- Embeds `cc4_map_r_end`: the container handle itself. -/
def cc4_map_r_end_ptr {κ ε : Type} (T : Table κ ε) : Ptr := (T.allocId, 0)

/-- Embeds `cc4_map_end`: one past the bucket array. -/
def cc4_map_end_ptr {κ ε : Type} (T : Table κ ε) (el_size : ℕ) (L : Layout) : Ptr :=
  cc4_map_el_ptr T T.cap el_size L

/-- Embeds `cc4_map_first`: the first occupied bucket, else the value the
source computes by calling `cc4_map_end` with element size `0` (the
`0 /* Dummy */` argument at line 2576 of `cc4.h`). -/
def cc4_map_first_ptr {κ ε : Type} (T : Table κ ε) (el_size : ℕ) (L : Layout) : Ptr :=
  match (List.range T.cap).find? (fun i => decide (plenAt T i ≠ 0)) with
  | some i => cc4_map_el_ptr T i el_size L
  | none => cc4_map_end_ptr T 0 L

/-- Embeds `cc4_map_last`: the last occupied bucket, else `r_end`. -/
def cc4_map_last_ptr {κ ε : Type} (T : Table κ ε) (el_size : ℕ) (L : Layout) : Ptr :=
  match (List.range T.cap).reverse.find? (fun i => decide (plenAt T i ≠ 0)) with
  | some i => cc4_map_el_ptr T i el_size L
  | none => cc4_map_r_end_ptr T

/-! ### Semantic view of a table -/

/-- The key/element pair a bucket holds, if occupied. -/
def bucketEntry {κ ε : Type} : Bucket κ ε → Option (κ × ε) :=
  fun b => b.map fun p => (p.1, p.2.1)

/-- The key/element pairs held by the occupied buckets, in bucket order. -/
def contents {κ ε : Type} (T : Table κ ε) : List (κ × ε) :=
  T.buckets.filterMap bucketEntry

/-- The same pairs as a multiset. -/
def contentsM {κ ε : Type} (T : Table κ ε) : Multiset (κ × ε) := (contents T : Multiset (κ × ε))

/-- The multiset of stored keys. -/
def keysM {κ ε : Type} (T : Table κ ε) : Multiset κ := (contentsM T).map Prod.fst

/-- The finite map a table denotes. -/
def model {κ ε : Type} [DecidableEq κ] (T : Table κ ε) (k : κ) : Option ε :=
  ((contents T).find? (fun p => decide (p.1 = k))).map Prod.snd

/-- Well-formedness of a table: correct header fields, power-of-two capacity
(of at least 8) unless placeholder, home-slot consistency with in-range probe
lengths, the Robin Hood adjacency invariant (the stored probe length can grow
by at most one from any bucket to the next), and pairwise-distinct keys. -/
structure WF {κ ε : Type} (hash : κ → ℕ) (T : Table κ ε) : Prop where
  hlen : T.buckets.length = T.cap
  hpow : T.cap = 0 ∨ ∃ m, T.cap = 2 ^ m ∧ 8 ≤ T.cap
  hsize : T.size = Multiset.card (contentsM T)
  hhome : ∀ i k e d, bkt T i = some (k, e, d) → d + 1 ≤ T.cap ∧ i = (hash k + d) % T.cap
  horder : ∀ i < T.cap, plenAt T ((i + 1) % T.cap) ≤ plenAt T i + 1
  hkeys : (keysM T).Nodup

/-! ### Basic bucket-array lemmas -/

section Basic

variable {κ ε : Type}

theorem bkt_eq_getElem (T : Table κ ε) (i : ℕ) (h : i < T.buckets.length) :
    bkt T i = T.buckets[i] := List.getD_eq_getElem _ _ h

theorem bkt_of_len_le {T : Table κ ε} {i : ℕ} (h : T.buckets.length ≤ i) :
    bkt T i = none := List.getD_eq_default _ _ h

theorem lt_len_of_bkt_some {T : Table κ ε} {i : ℕ} {x : κ × ε × ℕ}
    (h : bkt T i = some x) : i < T.buckets.length := by
  by_contra hc
  rw [bkt_of_len_le (Nat.le_of_not_lt hc)] at h
  exact Option.noConfusion h

theorem lt_len_of_plen_pos {T : Table κ ε} {i : ℕ} (h : 0 < plenAt T i) :
    i < T.buckets.length := by
  rcases hb : bkt T i with _ | x
  · rw [plenAt, hb] at h
    exact absurd h (by simp [plenOf])
  · exact lt_len_of_bkt_some hb

@[simp] theorem size_setBkt (T : Table κ ε) (i : ℕ) (b : Bucket κ ε) :
    (setBkt T i b).size = T.size := rfl

@[simp] theorem cap_setBkt (T : Table κ ε) (i : ℕ) (b : Bucket κ ε) :
    (setBkt T i b).cap = T.cap := rfl

@[simp] theorem allocId_setBkt (T : Table κ ε) (i : ℕ) (b : Bucket κ ε) :
    (setBkt T i b).allocId = T.allocId := rfl

@[simp] theorem len_setBkt (T : Table κ ε) (i : ℕ) (b : Bucket κ ε) :
    (setBkt T i b).buckets.length = T.buckets.length := List.length_set _ _ _

theorem bkt_setBkt_self {T : Table κ ε} {i : ℕ} (h : i < T.buckets.length)
    (b : Bucket κ ε) : bkt (setBkt T i b) i = b := by
  show (T.buckets.set i b).getD i none = b
  rw [List.getD_eq_getElem _ _ (by simpa using h), List.getElem_set_self]

theorem bkt_setBkt_ne (T : Table κ ε) {i j : ℕ} (hne : i ≠ j) (b : Bucket κ ε) :
    bkt (setBkt T i b) j = bkt T j := by
  show (T.buckets.set i b).getD j none = T.buckets.getD j none
  rcases Nat.lt_or_ge j T.buckets.length with hj | hj
  · rw [List.getD_eq_getElem _ _ (by simpa using hj), List.getD_eq_getElem _ _ hj,
      List.getElem_set_ne hne]
  · rw [List.getD_eq_default _ _ (by simpa using hj), List.getD_eq_default _ _ hj]

theorem plenAt_setBkt_self {T : Table κ ε} {i : ℕ} (h : i < T.buckets.length)
    (b : Bucket κ ε) : plenAt (setBkt T i b) i = plenOf b := by
  rw [plenAt, bkt_setBkt_self h]

theorem plenAt_setBkt_ne (T : Table κ ε) {i j : ℕ} (hne : i ≠ j) (b : Bucket κ ε) :
    plenAt (setBkt T i b) j = plenAt T j := by
  rw [plenAt, bkt_setBkt_ne T hne, plenAt]

@[simp] theorem plenOf_none : plenOf (none : Bucket κ ε) = 0 := rfl

@[simp] theorem plenOf_some (k : κ) (e : ε) (d : ℕ) :
    plenOf (some (k, e, d) : Bucket κ ε) = d + 1 := rfl

theorem plen_pos_of_some {T : Table κ ε} {i : ℕ} {x : κ × ε × ℕ}
    (h : bkt T i = some x) : 0 < plenAt T i := by
  obtain ⟨k, e, d⟩ := x
  rw [plenAt, h]
  exact Nat.succ_pos d

theorem bkt_isSome_of_plen_pos {T : Table κ ε} {i : ℕ} (h : 0 < plenAt T i) :
    ∃ k e d, bkt T i = some (k, e, d) ∧ plenAt T i = d + 1 := by
  rcases hb : bkt T i with _ | ⟨k, e, d⟩
  · rw [plenAt, hb] at h
    exact absurd h (by simp [plenOf])
  · exact ⟨k, e, d, rfl, by rw [plenAt, hb, plenOf_some]⟩

/-! ### Masking and modular arithmetic -/

theorem cc4_mask_eq_mod {n : ℕ} (m : ℕ) (hm : n = 2 ^ m) (x : ℕ) :
    cc4_mask n x = x % n := by
  subst hm
  exact Nat.and_pow_two_sub_one_eq_mod x m

theorem mod_step (n x : ℕ) : (x % n + 1) % n = (x + 1) % n :=
  (Nat.mod_modEq x n).add_right 1

theorem add_mod_inj {n a b x : ℕ} (ha : a < n) (hb : b < n)
    (h : (x + a) % n = (x + b) % n) : a = b := by
  have h2 : a % n = b % n := Nat.ModEq.add_left_cancel' x h
  rwa [Nat.mod_eq_of_lt ha, Nat.mod_eq_of_lt hb] at h2

/-! ### Contents and the effect of bucket updates -/

/-- Entry of a single bucket, as a (zero- or one-element) list. -/
def entryL : Bucket κ ε → List (κ × ε) := fun b => (bucketEntry b).toList

/-- Entry of a single bucket, as a multiset. -/
def entryM (b : Bucket κ ε) : Multiset (κ × ε) := (entryL b : Multiset (κ × ε))

@[simp] theorem entryL_none : entryL (none : Bucket κ ε) = [] := rfl

@[simp] theorem entryL_some (k : κ) (e : ε) (d : ℕ) :
    entryL (some (k, e, d) : Bucket κ ε) = [(k, e)] := rfl

@[simp] theorem entryM_none : entryM (none : Bucket κ ε) = 0 := rfl

@[simp] theorem entryM_some (k : κ) (e : ε) (d : ℕ) :
    entryM (some (k, e, d) : Bucket κ ε) = {(k, e)} := rfl

theorem filterMap_bucketEntry_cons (b : Bucket κ ε) (l : List (Bucket κ ε)) :
    (b :: l).filterMap bucketEntry = entryL b ++ l.filterMap bucketEntry := by
  rcases b with _ | ⟨k, e, d⟩ <;> simp [List.filterMap_cons, bucketEntry]

theorem contents_decomp (T : Table κ ε) {i : ℕ} (h : i < T.buckets.length) :
    contents T = (T.buckets.take i).filterMap bucketEntry ++ (entryL (bkt T i)
      ++ (T.buckets.drop (i + 1)).filterMap bucketEntry) := by
  have h1 : T.buckets = T.buckets.take i ++ T.buckets[i] :: T.buckets.drop (i + 1) := by
    conv_lhs => rw [← List.take_append_drop i T.buckets]
    rw [List.drop_eq_getElem_cons h]
  rw [contents]
  conv_lhs => rw [h1]
  rw [List.filterMap_append, filterMap_bucketEntry_cons, bkt_eq_getElem T i h]

theorem contents_setBkt (T : Table κ ε) {i : ℕ} (h : i < T.buckets.length)
    (b : Bucket κ ε) :
    contents (setBkt T i b) = (T.buckets.take i).filterMap bucketEntry ++ (entryL b
      ++ (T.buckets.drop (i + 1)).filterMap bucketEntry) := by
  show (T.buckets.set i b).filterMap bucketEntry = _
  rw [List.set_eq_take_append_cons_drop, if_pos h, List.filterMap_append,
    filterMap_bucketEntry_cons]

theorem contentsM_setBkt (T : Table κ ε) {i : ℕ} (h : i < T.buckets.length)
    (b : Bucket κ ε) :
    contentsM (setBkt T i b) + entryM (bkt T i) = contentsM T + entryM b := by
  unfold contentsM entryM
  rw [contents_setBkt T h b, contents_decomp T h]
  rw [← Multiset.coe_add, ← Multiset.coe_add, ← Multiset.coe_add, ← Multiset.coe_add]
  abel

theorem card_contentsM (T : Table κ ε) :
    Multiset.card (contentsM T) = (contents T).length := Multiset.coe_card _

theorem length_filterMap_of_all (l : List (Bucket κ ε)) (h : ∀ b ∈ l, b.isSome) :
    (l.filterMap bucketEntry).length = l.length := by
  induction l with
  | nil => rfl
  | cons a t ih =>
    rcases a with _ | ⟨k, e, d⟩
    · exact absurd (h none (List.mem_cons_self _ _)) (by simp)
    · rw [filterMap_bucketEntry_cons, entryL_some, List.length_append, List.length_cons,
        List.length_nil, ih fun b hb => h b (List.mem_cons_of_mem _ hb)]
      simp [Nat.add_comm]

theorem exists_empty_bucket {T : Table κ ε} {n : ℕ} (hlen : T.buckets.length = n)
    (h : Multiset.card (contentsM T) < n) : ∃ j, j < n ∧ bkt T j = none := by
  by_contra hc
  push_neg at hc
  have hall : ∀ b ∈ T.buckets, b.isSome := by
    intro b hb
    obtain ⟨j, hj, hjb⟩ := List.mem_iff_getElem.mp hb
    have : bkt T j = b := by rw [bkt_eq_getElem T j hj, hjb]
    rcases b with _ | x
    · exact absurd this (hc j (hlen ▸ hj))
    · rfl
  rw [card_contentsM, contents, length_filterMap_of_all _ hall, hlen] at h
  exact Nat.lt_irrefl _ h

theorem mem_contents_iff {T : Table κ ε} {k : κ} {e : ε} :
    (k, e) ∈ contents T ↔ ∃ i d, bkt T i = some (k, e, d) := by
  rw [contents, List.mem_filterMap]
  constructor
  · rintro ⟨b, hb, hfb⟩
    rcases b with _ | ⟨k2, e2, d⟩
    · exact absurd hfb (by simp [bucketEntry])
    · have hk : k2 = k ∧ e2 = e := by
        have : (k2, e2) = (k, e) := by simpa [bucketEntry] using hfb
        exact ⟨congrArg Prod.fst this, congrArg Prod.snd this⟩
      obtain ⟨j, hj, hjb⟩ := List.mem_iff_getElem.mp hb
      exact ⟨j, d, by rw [bkt_eq_getElem T j hj, hjb, hk.1, hk.2]⟩
  · rintro ⟨i, d, hi⟩
    refine ⟨some (k, e, d), ?_, rfl⟩
    have hlt := lt_len_of_bkt_some hi
    rw [bkt_eq_getElem T i hlt] at hi
    exact hi ▸ List.getElem_mem hlt

theorem nodup_map_fst_unique {α β : Type} {l : List (α × β)}
    (h : (l.map Prod.fst).Nodup) {k : α} {e1 e2 : β}
    (h1 : (k, e1) ∈ l) (h2 : (k, e2) ∈ l) : e1 = e2 := by
  induction l with
  | nil => cases h1
  | cons a t ih =>
    rw [List.map_cons, List.nodup_cons] at h
    rcases List.mem_cons.mp h1 with ha1 | ht1
    · rcases List.mem_cons.mp h2 with ha2 | ht2
      · rw [← ha1] at ha2
        exact (Prod.ext_iff.mp ha2).2.symm
      · exact absurd (List.mem_map.mpr ⟨(k, e2), ht2, by rw [← ha1]⟩) h.1
    · rcases List.mem_cons.mp h2 with ha2 | ht2
      · exact absurd (List.mem_map.mpr ⟨(k, e1), ht1, by rw [← ha2]⟩) h.1
      · exact ih h.2 ht1 ht2

theorem keysM_nodup_iff {T : Table κ ε} :
    (keysM T).Nodup ↔ ((contents T).map Prod.fst).Nodup := by
  rw [keysM, contentsM, Multiset.map_coe, Multiset.coe_nodup]

theorem mem_keysM_iff {T : Table κ ε} {k : κ} :
    k ∈ keysM T ↔ ∃ e, (k, e) ∈ contents T := by
  rw [keysM, contentsM, Multiset.map_coe, Multiset.mem_coe, List.mem_map]
  constructor
  · rintro ⟨p, hp, hpk⟩
    exact ⟨p.2, by rwa [← hpk, Prod.mk.eta]⟩
  · rintro ⟨e, he⟩
    exact ⟨(k, e), he, rfl⟩

theorem contents_unique {T : Table κ ε} (hnd : (keysM T).Nodup) {k : κ} {e1 e2 : ε}
    (h1 : (k, e1) ∈ contents T) (h2 : (k, e2) ∈ contents T) : e1 = e2 :=
  nodup_map_fst_unique (keysM_nodup_iff.mp hnd) h1 h2

theorem model_eq_some_iff {T : Table κ ε} [DecidableEq κ] (hnd : (keysM T).Nodup)
    {k : κ} {e : ε} : model T k = some e ↔ (k, e) ∈ contents T := by
  rw [model]
  constructor
  · intro h
    rcases hf : (contents T).find? (fun q => decide (q.1 = k)) with _ | q
    · rw [hf] at h
      exact Option.noConfusion h
    · rw [hf] at h
      have hqk : q.1 = k := by
        have := List.find?_some hf
        exact of_decide_eq_true this
      have hqe : q.2 = e := by simpa using h
      have := List.mem_of_find?_eq_some hf
      rwa [← Prod.mk.eta (p := q), hqk, hqe] at this
  · intro hmem
    rcases hf : (contents T).find? (fun q => decide (q.1 = k)) with _ | q
    · rw [List.find?_eq_none] at hf
      exact absurd (by simp) (hf (k, e) hmem)
    · have hqk : q.1 = k := by
        have := List.find?_some hf
        exact of_decide_eq_true this
      have hqmem := List.mem_of_find?_eq_some hf
      have hqe : q.2 = e := by
        refine contents_unique hnd ?_ hmem
        rwa [← Prod.mk.eta (p := q), hqk] at hqmem
      rw [hf, Option.map_some', hqe]

theorem model_eq_none_iff {T : Table κ ε} [DecidableEq κ] {k : κ} :
    model T k = none ↔ ∀ e, (k, e) ∉ contents T := by
  rw [model, Option.map_eq_none']
  constructor
  · intro h e hmem
    rw [List.find?_eq_none] at h
    exact absurd (by simp) (h (k, e) hmem)
  · intro h
    rw [List.find?_eq_none]
    intro p hp hpk
    have : p.1 = k := of_decide_eq_true hpk
    exact h p.2 (by rwa [← Prod.mk.eta (p := p), this] at hp)

end Basic

/-! ### Capacity policy: `cc4_map_min_cap_for_n_els` -/

section MinCap

theorem min_cap_loop_spec (n : ℕ) (ml : ℚ) :
    ∀ fuel cap : ℕ,
      (∃ k, k < fuel ∧ (n : ℚ) ≤ ((cap * 2 ^ k : ℕ) : ℚ) * ml) →
      ∃ j, cc4_map_min_cap_loop n ml fuel cap = cap * 2 ^ j ∧
        (n : ℚ) ≤ ((cap * 2 ^ j : ℕ) : ℚ) * ml ∧
        ∀ j2, (n : ℚ) ≤ ((cap * 2 ^ j2 : ℕ) : ℚ) * ml → j ≤ j2 := by
  intro fuel
  induction fuel with
  | zero =>
    rintro cap ⟨k, hk, _⟩
    exact absurd hk (Nat.not_lt_zero k)
  | succ fuel ih =>
    rintro cap ⟨k, hk, hbound⟩
    rw [cc4_map_min_cap_loop]
    by_cases hguard : (cap : ℚ) * ml < n
    · rw [if_pos hguard]
      have hk0 : k ≠ 0 := by
        rintro rfl
        rw [Nat.pow_zero, Nat.mul_one] at hbound
        exact absurd hbound (not_le.mpr hguard)
      have hrec : ∃ k2, k2 < fuel ∧ (n : ℚ) ≤ ((cap * 2 * 2 ^ k2 : ℕ) : ℚ) * ml := by
        refine ⟨k - 1, by omega, ?_⟩
        have hk1 : (k - 1).succ = k := by omega
        have : cap * 2 * 2 ^ (k - 1) = cap * 2 ^ k := by
          rw [Nat.mul_assoc, ← Nat.pow_succ', hk1]
        rwa [this]
      obtain ⟨j, hj, hjb, hjmin⟩ := ih (cap * 2) hrec
      refine ⟨j + 1, ?_, ?_, ?_⟩
      · rw [hj, Nat.mul_assoc, ← Nat.pow_succ']
      · rwa [Nat.mul_assoc, ← Nat.pow_succ'] at hjb
      · intro j2 hj2
        have hj20 : j2 ≠ 0 := by
          rintro rfl
          rw [Nat.pow_zero, Nat.mul_one] at hj2
          exact absurd hj2 (not_le.mpr hguard)
        have : (n : ℚ) ≤ ((cap * 2 * 2 ^ (j2 - 1) : ℕ) : ℚ) * ml := by
          have hj21 : (j2 - 1).succ = j2 := by omega
          have h2 : cap * 2 * 2 ^ (j2 - 1) = cap * 2 ^ j2 := by
            rw [Nat.mul_assoc, ← Nat.pow_succ', hj21]
          rwa [h2]
        have := hjmin (j2 - 1) this
        omega
    · rw [if_neg hguard]
      refine ⟨0, by rw [Nat.pow_zero, Nat.mul_one], ?_, fun j2 _ => Nat.zero_le j2⟩
      rw [Nat.pow_zero, Nat.mul_one]
      exact not_lt.mp hguard

theorem min_cap_fuel_suffices {n : ℕ} {ml : ℚ} (hml : 0 < ml) (hn : 1 ≤ n) :
    ∃ k, k < cc4_min_cap_fuel n ml ∧ (n : ℚ) ≤ ((8 * 2 ^ k : ℕ) : ℚ) * ml := by
  set c : ℕ := (⌈1 / ml⌉).toNat with hc
  refine ⟨n * (c + 1), ?_, ?_⟩
  · rw [cc4_min_cap_fuel, ← hc]
    exact Nat.lt_succ_self _
  have hcq : 1 / ml ≤ (c : ℚ) := by
    have h1 : (1 / ml) ≤ ((⌈1 / ml⌉ : ℤ) : ℚ) := Int.le_ceil _
    have h2 : (0 : ℤ) ≤ ⌈1 / ml⌉ := by
      refine Int.ceil_nonneg ?_
      positivity
    calc 1 / ml ≤ ((⌈1 / ml⌉ : ℤ) : ℚ) := h1
      _ = (c : ℚ) := by rw [hc]; exact_mod_cast (Int.toNat_of_nonneg h2).symm
  have hcml : 1 ≤ (c : ℚ) * ml := by
    have := mul_le_mul_of_nonneg_right hcq (le_of_lt hml)
    rwa [one_div, inv_mul_cancel₀ (ne_of_gt hml)] at this
  have hpow : (n * c : ℕ) ≤ 2 ^ (n * (c + 1)) := by
    calc n * c ≤ n * (c + 1) := Nat.mul_le_mul_left n (Nat.le_succ c)
      _ ≤ 2 ^ (n * (c + 1)) := le_of_lt (Nat.lt_two_pow _)
  calc (n : ℚ) = n * 1 := (mul_one _).symm
    _ ≤ n * ((c : ℚ) * ml) := by
        refine mul_le_mul_of_nonneg_left hcml ?_
        positivity
    _ = ((n * c : ℕ) : ℚ) * ml := by push_cast; ring
    _ ≤ ((2 ^ (n * (c + 1)) : ℕ) : ℚ) * ml := by
        refine mul_le_mul_of_nonneg_right ?_ (le_of_lt hml)
        exact_mod_cast hpow
    _ ≤ ((8 * 2 ^ (n * (c + 1)) : ℕ) : ℚ) * ml := by
        refine mul_le_mul_of_nonneg_right ?_ (le_of_lt hml)
        push_cast
        nlinarith [pow_nonneg (by norm_num : (0:ℚ) ≤ 2) (n * (c + 1))]

/-- Specification of `cc4_map_min_cap_for_n_els` for `n ≥ 1` and a positive
load factor: the result is the least power of two that is at least 8 and
accommodates `n` elements within the load factor. -/
theorem min_cap_spec {n : ℕ} {ml : ℚ} (hml : 0 < ml) (hn : 1 ≤ n) :
    (∃ m, cc4_map_min_cap_for_n_els n ml = 2 ^ m) ∧
      8 ≤ cc4_map_min_cap_for_n_els n ml ∧
      (n : ℚ) ≤ (cc4_map_min_cap_for_n_els n ml : ℚ) * ml ∧
      ∀ c2 : ℕ, 8 ≤ c2 → (∃ m2, c2 = 2 ^ m2) →
        (n : ℚ) ≤ (c2 : ℚ) * ml → cc4_map_min_cap_for_n_els n ml ≤ c2 := by
  have hn0 : n ≠ 0 := by omega
  rw [cc4_map_min_cap_for_n_els, if_neg hn0]
  obtain ⟨j, hj, hjb, hjmin⟩ :=
    min_cap_loop_spec n ml (cc4_min_cap_fuel n ml) 8 (min_cap_fuel_suffices hml hn)
  rw [hj]
  refine ⟨⟨3 + j, by rw [pow_add]; norm_num⟩, Nat.le_mul_of_pos_right 8 (Nat.pos_pow_of_pos j (by norm_num)), hjb, ?_⟩
  rintro c2 hc2 ⟨m2, rfl⟩ hc2b
  have hm2 : 3 ≤ m2 := by
    have : (2 : ℕ) ^ 3 ≤ 2 ^ m2 := by norm_num at hc2 ⊢; exact hc2
    exact (Nat.pow_le_pow_iff_right (by norm_num)).mp this
  have hdecomp : (2 : ℕ) ^ m2 = 8 * 2 ^ (m2 - 3) := by
    have : m2 = 3 + (m2 - 3) := by omega
    rw [this, pow_add]
    norm_num
  have := hjmin (m2 - 3) (by rwa [← hdecomp])
  rw [hdecomp]
  exact Nat.mul_le_mul_left 8 (Nat.pow_le_pow_right (by norm_num) this)

@[simp] theorem min_cap_zero (ml : ℚ) : cc4_map_min_cap_for_n_els 0 ml = 0 := by
  rw [cc4_map_min_cap_for_n_els, if_pos rfl]

end MinCap

/-! ### Lookup correctness -/

section Lookup

variable {κ ε : Type} [DecidableEq κ]

/-- Home-slot consistency of every occupied bucket of a capacity-`n` table. -/
def HomeOK {κ ε : Type} (hash : κ → ℕ) (n : ℕ) (T : Table κ ε) : Prop :=
  ∀ i k e d, bkt T i = some (k, e, d) → d + 1 ≤ n ∧ i = (hash k + d) % n

/-- The Robin Hood adjacency invariant of a capacity-`n` table. -/
def OrderOK {κ ε : Type} (n : ℕ) (T : Table κ ε) : Prop :=
  ∀ i < n, plenAt T ((i + 1) % n) ≤ plenAt T i + 1

theorem wf_homeOK {hash : κ → ℕ} {T : Table κ ε} (hW : WF hash T) :
    HomeOK hash T.cap T := hW.hhome

theorem wf_orderOK {hash : κ → ℕ} {T : Table κ ε} (hW : WF hash T) :
    OrderOK T.cap T := hW.horder

theorem bkt_none_of_plen_zero {T : Table κ ε} {i : ℕ} (h : plenAt T i = 0) :
    bkt T i = none := by
  rcases hb : bkt T i with _ | ⟨k, e, d⟩
  · rfl
  · rw [plenAt, hb, plenOf_some] at h
    omega

theorem succ_mod_inj {n a b : ℕ} (ha : a < n) (hb : b < n)
    (h : (a + 1) % n = (b + 1) % n) : a = b := by
  refine add_mod_inj ha hb (x := 1) ?_
  rwa [Nat.add_comm a 1, Nat.add_comm b 1] at h

theorem pred_succ_mod {n i : ℕ} (hn : 0 < n) (hi : i < n) :
    ((i + (n - 1)) % n + 1) % n = i := by
  rw [mod_step]
  have : i + (n - 1) + 1 = i + n := by omega
  rw [this, Nat.add_mod_right, Nat.mod_eq_of_lt hi]

theorem succ_pred_mod {n i : ℕ} (hn : 0 < n) (hi : i < n) :
    ((i + 1) % n + (n - 1)) % n = i := by
  have h1 : ((i + 1) % n + (n - 1)) % n = (i + 1 + (n - 1)) % n :=
    (Nat.mod_modEq (i + 1) n).add_right (n - 1)
  rw [h1]
  have : i + 1 + (n - 1) = i + n := by omega
  rw [this, Nat.add_mod_right, Nat.mod_eq_of_lt hi]

theorem eq_pred_of_succ_mod {n i j : ℕ} (hn : 0 < n) (hi : i < n) (hj : j < n)
    (h : (j + 1) % n = i) : j = (i + (n - 1)) % n :=
  succ_mod_inj hj (Nat.mod_lt _ hn) (by rw [h, pred_succ_mod hn hi])

theorem slot_ne_of_shift {n i s : ℕ} (hi : i < n) (hs0 : 0 < s) (hsn : s < n) :
    (i + s) % n ≠ i := by
  intro h
  have h2 : (i + s) % n = (i + 0) % n := by
    rw [h, Nat.add_zero, Nat.mod_eq_of_lt hi]
  exact absurd (add_mod_inj hsn (by omega) h2) (by omega)

theorem mod_solve {n x j : ℕ} (hj : j < n) : ∃ s, s < n ∧ (x + s) % n = j := by
  have hn : 0 < n := by omega
  refine ⟨(j + n - x % n) % n, Nat.mod_lt _ hn, ?_⟩
  have h1 : (x + (j + n - x % n) % n) % n = (x + (j + n - x % n)) % n :=
    (Nat.mod_modEq (j + n - x % n) n).add_left x
  have h2 : (x + (j + n - x % n)) % n = (x % n + (j + n - x % n)) % n :=
    ((Nat.mod_modEq x n).add_right _).symm
  have hxn : x % n < n := Nat.mod_lt _ hn
  have h3 : x % n + (j + n - x % n) = j + n := by omega
  rw [h1, h2, h3, Nat.add_mod_right, Nat.mod_eq_of_lt hj]

/-- If every slot within `t` steps of a walk is occupied and the walk spans
the whole ring (`n ≤ t`), the table has no empty bucket; with fewer occupied
entries than buckets this is absurd. -/
theorem no_full_walk {T : Table κ ε} {n t x : ℕ}
    (hlen : T.buckets.length = n) (hcard : Multiset.card (contentsM T) < n)
    (hocc : ∀ s, s < t → 0 < plenAt T ((x + s) % n)) (hnt : n ≤ t) : False := by
  obtain ⟨j, hj, hempty⟩ := exists_empty_bucket hlen hcard
  obtain ⟨s, hs, hxs⟩ := mod_solve (x := x) hj
  have := hocc s (by omega)
  rw [hxs, plenAt, hempty] at this
  exact absurd this (by simp [plenOf])

theorem wf_plen_le {hash : κ → ℕ} {T : Table κ ε} (hW : WF hash T) (i : ℕ) :
    plenAt T i ≤ T.cap := by
  rcases hb : bkt T i with _ | ⟨k, e, d⟩
  · rw [plenAt, hb]
    exact Nat.zero_le _
  · rw [plenAt, hb, plenOf_some]
    exact (hW.hhome i k e d hb).1

theorem wf_cap_pos {hash : κ → ℕ} {T : Table κ ε} (hW : WF hash T) {i : ℕ}
    {x : κ × ε × ℕ} (hb : bkt T i = some x) : 0 < T.cap := by
  obtain ⟨k, e, d⟩ := x
  have := (hW.hhome i k e d hb).1
  omega

/-- Walking forward from the home slot of a stored key, every slot at probe
counter `t + 1` on the way to the key's bucket stores a probe length of at
least `t + 1` (claim C4's chain property, derived from the adjacency
invariant). -/
theorem walk_chain_of {hash : κ → ℕ} {n : ℕ} {T : Table κ ε}
    (hH : HomeOK hash n T) (hO : OrderOK n T)
    {j : ℕ} {k : κ} {e : ε} {d : ℕ} (hj : bkt T j = some (k, e, d)) :
    ∀ t, t ≤ d → t + 1 ≤ plenAt T ((hash k + t) % n) := by
  obtain ⟨hd, hjeq⟩ := hH j k e d hj
  have hn : 0 < n := by omega
  suffices H : ∀ m t, t ≤ d → d - t = m → t + 1 ≤ plenAt T ((hash k + t) % n) by
    exact fun t ht => H (d - t) t ht rfl
  intro m
  induction m with
  | zero =>
    intro t ht h0
    have : t = d := by omega
    subst this
    rw [← hjeq, plenAt, hj, plenOf_some]
  | succ m ih =>
    intro t ht hm
    have hIH := ih (t + 1) (by omega) (by omega)
    have hord := hO ((hash k + t) % n) (Nat.mod_lt _ hn)
    rw [mod_step] at hord
    have : hash k + t + 1 = hash k + (t + 1) := by omega
    rw [this] at hord
    omega

theorem walk_chain {hash : κ → ℕ} {T : Table κ ε} (hW : WF hash T)
    {j : ℕ} {k : κ} {e : ε} {d : ℕ} (hj : bkt T j = some (k, e, d)) :
    ∀ t, t ≤ d → t + 1 ≤ plenAt T ((hash k + t) % T.cap) :=
  walk_chain_of (wf_homeOK hW) (wf_orderOK hW) hj

/-- In a table with pairwise-distinct keys, a key determines its bucket. -/
theorem bkt_key_unique {T : Table κ ε} (hnd : (keysM T).Nodup) {i j : ℕ} {k : κ}
    {e1 : ε} {d1 : ℕ} {e2 : ε} {d2 : ℕ}
    (hi : bkt T i = some (k, e1, d1)) (hj : bkt T j = some (k, e2, d2)) : i = j := by
  by_contra hne
  wlog hlt : i < j generalizing i j e1 d1 e2 d2
  · exact this hj hi (Ne.symm hne) (by omega)
  have hjlen := lt_len_of_bkt_some hj
  have hilen := lt_len_of_bkt_some hi
  have hdec := contents_decomp T hjlen
  rw [hj, entryL_some] at hdec
  have hmem1 : (k, e1) ∈ (T.buckets.take j).filterMap bucketEntry := by
    rw [List.mem_filterMap]
    refine ⟨some (k, e1, d1), ?_, rfl⟩
    rw [List.mem_iff_getElem]
    refine ⟨i, by rw [List.length_take]; omega, ?_⟩
    rw [List.getElem_take, ← bkt_eq_getElem T i hilen]
    exact hi
  have hnd2 := keysM_nodup_iff.mp hnd
  rw [hdec, List.map_append] at hnd2
  exact (List.nodup_append.mp hnd2).2.2 (List.mem_map.mpr ⟨(k, e1), hmem1, rfl⟩)
    (by simp)

/-- The lookup loop, started at probe counter `t + 1` on the walk of a stored
key, reaches and reports that key's bucket. -/
theorem get_loop_finds {hash : κ → ℕ} {T : Table κ ε} (hW : WF hash T)
    {j : ℕ} {k : κ} {e : ε} {d : ℕ} (hj : bkt T j = some (k, e, d)) :
    ∀ fuel t, t ≤ d → T.cap + 1 ≤ fuel + t →
      cc4_map_get_loop T k fuel ((hash k + t) % T.cap) (t + 1) = some (some j) := by
  have hd := (hW.hhome j k e d hj).1
  intro fuel
  induction fuel with
  | zero =>
    intro t ht hfuel
    omega
  | succ fuel ih =>
    intro t ht hfuel
    have hchain := walk_chain hW hj t ht
    rw [cc4_map_get_loop, if_pos hchain]
    rcases Nat.eq_or_lt_of_le ht with heq | hlt
    · subst heq
      have hij : (hash k + t) % T.cap = j := ((hW.hhome j k e t hj).2).symm
      have hcond : t + 1 = plenAt T ((hash k + t) % T.cap) ∧
          keyAt T ((hash k + t) % T.cap) = some k := by
        rw [hij]
        exact ⟨by rw [plenAt, hj, plenOf_some], by rw [keyAt, hj, Option.map_some']⟩
      rw [if_pos hcond, hij]
    · have hcondF : ¬(t + 1 = plenAt T ((hash k + t) % T.cap) ∧
          keyAt T ((hash k + t) % T.cap) = some k) := by
        rintro ⟨hp, hkey⟩
        rw [keyAt] at hkey
        rcases hb : bkt T ((hash k + t) % T.cap) with _ | ⟨k2, e2, d2⟩
        · rw [hb] at hkey
          exact Option.noConfusion hkey
        · rw [hb, Option.map_some'] at hkey
          have hk2 : k2 = k := by simpa using hkey
          subst hk2
          have hij := bkt_key_unique hW.hkeys hb hj
          rw [hij, hj] at hb
          have hdd2 : d = d2 := congrArg (fun p => p.2.2) (Option.some.inj hb)
          rw [plenAt, hij, hj, plenOf_some] at hp
          omega
      have hstep : cc4_mask T.cap ((hash k + t) % T.cap + 1) = (hash k + (t + 1)) % T.cap := by
        obtain ⟨m, hm, _⟩ := hW.hpow.resolve_left (by omega)
        rw [cc4_mask_eq_mod m hm, mod_step]
        congr 1
      rw [if_neg hcondF, hstep]
      exact ih (t + 1) (by omega) (by omega)

/-- The lookup loop reports "not found" when the key is nowhere in the
table. -/
theorem get_loop_none {T : Table κ ε} {k : κ}
    (hplen : ∀ i, plenAt T i ≤ T.cap)
    (habs : ∀ i, keyAt T i ≠ some k) :
    ∀ fuel t i, T.cap + 2 ≤ fuel + t → t ≤ T.cap + 1 →
      cc4_map_get_loop T k fuel i t = some none := by
  intro fuel
  induction fuel with
  | zero =>
    intro t i hfuel ht
    omega
  | succ fuel ih =>
    intro t i hfuel ht
    rw [cc4_map_get_loop]
    by_cases hguard : t ≤ plenAt T i
    · have hcondF : ¬(t = plenAt T i ∧ keyAt T i = some k) := by
        rintro ⟨_, hkey⟩
        exact habs i hkey
      rw [if_pos hguard, if_neg hcondF]
      exact ih (t + 1) _ (by omega) (by have := hplen i; omega)
    · rw [if_neg hguard]

/-- The embedded `cc4_map_get` finds the bucket of any stored key (given a
well-formed table). -/
theorem cc4_map_get_found {hash : κ → ℕ} {T : Table κ ε} (hW : WF hash T)
    {j : ℕ} {k : κ} {e : ε} {d : ℕ} (hj : bkt T j = some (k, e, d)) :
    cc4_map_get hash T k = some (some j) := by
  have hcap : 0 < T.cap := wf_cap_pos hW hj
  have hsz : cc4_map_size T ≠ 0 := by
    rw [cc4_map_size, hW.hsize, card_contentsM]
    have : (k, e) ∈ contents T := mem_contents_iff.mpr ⟨j, d, hj⟩
    have := List.length_pos_of_mem this
    omega
  rw [cc4_map_get, if_neg hsz]
  obtain ⟨m, hm, _⟩ := hW.hpow.resolve_left (by omega)
  rw [cc4_mask_eq_mod m hm]
  have h0 : hash k % T.cap = (hash k + 0) % T.cap := by rw [Nat.add_zero]
  rw [h0]
  exact get_loop_finds hW hj (T.cap + 1) 0 (Nat.zero_le d) (by omega)

/-- The embedded `cc4_map_get` reports "not found" for any key not in a
well-formed table. -/
theorem cc4_map_get_absent {hash : κ → ℕ} {T : Table κ ε} (hW : WF hash T)
    {k : κ} (habs : k ∉ keysM T) : cc4_map_get hash T k = some none := by
  rw [cc4_map_get]
  by_cases hsz : cc4_map_size T = 0
  · rw [if_pos hsz]
  · rw [if_neg hsz]
    refine get_loop_none (wf_plen_le hW) ?_ (T.cap + 1) 1 _ (by omega) (by omega)
    intro i hkey
    rw [keyAt] at hkey
    rcases hb : bkt T i with _ | ⟨k2, e2, d2⟩
    · rw [hb] at hkey
      exact Option.noConfusion hkey
    · rw [hb, Option.map_some'] at hkey
      have : k2 = k := by simpa using hkey
      subst this
      exact habs (mem_keysM_iff.mpr ⟨e2, mem_contents_iff.mpr ⟨i, d2, hb⟩⟩)

end Lookup

/-! ### The placement (displacement) loop of insertion -/

section Place

variable {κ ε : Type} [DecidableEq κ]

theorem triple_inj {κ2 : Type} {k k2 : κ2} {e e2 : ε} {d d2 : ℕ}
    (h : (k, e, d) = (k2, e2, d2)) : k = k2 ∧ e = e2 ∧ d = d2 := by
  obtain ⟨h1, h2⟩ := Prod.ext_iff.mp h
  obtain ⟨h3, h4⟩ := Prod.ext_iff.mp h2
  exact ⟨h1, h3, h4⟩

theorem insert_place_succ_empty {fuel : ℕ} {T : Table κ ε} {k : κ} {e : ε}
    {i p ret : ℕ} (hempty : plenAt T i = 0) :
    cc4_map_insert_place (fuel + 1) T k e i p ret =
      some (setBkt T i (some (k, e, p - 1)), ret) := by
  rw [cc4_map_insert_place, if_pos hempty]

theorem insert_place_succ_steal {fuel : ℕ} {T : Table κ ε} {k : κ} {e : ε}
    {i p ret : ℕ} {k2 : κ} {e2 : ε} {d2 : ℕ} (hempty : ¬ plenAt T i = 0)
    (hsteal : plenAt T i < p) (hb2 : bkt T i = some (k2, e2, d2)) :
    cc4_map_insert_place (fuel + 1) T k e i p ret =
      cc4_map_insert_place fuel (setBkt T i (some (k, e, p - 1))) k2 e2
        (cc4_mask T.cap (i + 1)) (d2 + 1 + 1) ret := by
  rw [cc4_map_insert_place, if_neg hempty, if_pos hsteal, hb2]

theorem insert_place_succ_skip {fuel : ℕ} {T : Table κ ε} {k : κ} {e : ε}
    {i p ret : ℕ} (hempty : ¬ plenAt T i = 0) (hge : ¬ plenAt T i < p) :
    cc4_map_insert_place (fuel + 1) T k e i p ret =
      cc4_map_insert_place fuel T k e (cc4_mask T.cap (i + 1)) (p + 1) ret := by
  rw [cc4_map_insert_place, if_neg hempty, if_neg hge]

/-- Full functional specification of the placement loop: started on a
candidate `(k, e)` at probe length `p` and slot `i` on its walk, in a table
whose contents leave at least one bucket free within the loop's fuel, the
loop terminates, deposits the candidate (preserving every other entry), and
maintains the home and adjacency invariants. -/
theorem insert_place_spec (hash : κ → ℕ) {n : ℕ} (m : ℕ) (hm : n = 2 ^ m)
    (hn8 : 8 ≤ n) :
    ∀ fuel (T : Table κ ε) k e i p ret,
      T.cap = n → T.buckets.length = n →
      i < n → 1 ≤ p → i = (hash k + (p - 1)) % n →
      Multiset.card (contentsM T) < n →
      HomeOK hash n T → OrderOK n T →
      p ≤ plenAt T ((i + (n - 1)) % n) + 1 →
      (∀ s, s + 1 < p → 0 < plenAt T ((hash k + s) % n)) →
      (∃ s, s < fuel ∧ s < n ∧ bkt T ((i + s) % n) = none) →
      ∃ Tf : Table κ ε, cc4_map_insert_place fuel T k e i p ret = some (Tf, ret) ∧
        Tf.cap = n ∧ Tf.allocId = T.allocId ∧ Tf.size = T.size ∧
        Tf.buckets.length = n ∧
        contentsM Tf = contentsM T + {(k, e)} ∧
        HomeOK hash n Tf ∧ OrderOK n Tf := by
  intro fuel
  induction fuel with
  | zero =>
    rintro T k e i p ret _ _ _ _ _ _ _ _ _ _ ⟨s, hs, _, _⟩
    omega
  | succ fuel ih =>
    rintro T k e i p ret hcap hlen hi hp hieq hcard hH hO hA6 hA7 ⟨s, hsf, hsn, hsE⟩
    have hn : 0 < n := by omega
    have hn1 : 1 < n := by omega
    have hmask : ∀ x, cc4_mask T.cap x = x % n := fun x => by
      rw [hcap]; exact cc4_mask_eq_mod m hm x
    have hilen : i < T.buckets.length := by omega
    by_cases hempty : plenAt T i = 0
    · -- the candidate lands in the empty bucket i
      have hbe := bkt_none_of_plen_zero hempty
      have hpn : p ≤ n := by
        by_contra hc
        push_neg at hc
        have h1 : (hash k + (p - 1 - n)) % n = i := by
          rw [hieq]
          have h2 : hash k + (p - 1) = hash k + (p - 1 - n) + n := by omega
          rw [h2, Nat.add_mod_right]
        have := hA7 (p - 1 - n) (by omega)
        rw [h1] at this
        omega
      refine ⟨setBkt T i (some (k, e, p - 1)), insert_place_succ_empty hempty,
        by simp [hcap], by simp, by simp, by simp [hlen], ?_, ?_, ?_⟩
      · have h := contentsM_setBkt T hilen (some (k, e, p - 1))
        rw [hbe, entryM_none, add_zero, entryM_some] at h
        exact h
      · intro i3 k3 e3 d3 hb3
        by_cases hii : i3 = i
        · subst hii
          rw [bkt_setBkt_self hilen] at hb3
          obtain ⟨hk, he, hd⟩ := triple_inj (Option.some.inj hb3)
          refine ⟨by omega, ?_⟩
          rw [← hk, ← hd, hieq]
        · rw [bkt_setBkt_ne T (fun h => hii h.symm)] at hb3
          exact hH i3 k3 e3 d3 hb3
      · intro j hj
        by_cases hji : j = i
        · subst hji
          have hne : (j + 1) % n ≠ j := slot_ne_of_shift hj Nat.one_pos hn1
          rw [plenAt_setBkt_ne T (fun h => hne h.symm), plenAt_setBkt_self hilen,
            plenOf_some]
          have := hO j hj
          omega
        · by_cases hsucc : (j + 1) % n = i
          · have hjpred : j = (i + (n - 1)) % n := eq_pred_of_succ_mod hn hi hj hsucc
            rw [hsucc, plenAt_setBkt_self hilen, plenAt_setBkt_ne T (fun h => hji h.symm),
              plenOf_some]
            rw [hjpred]
            omega
          · rw [plenAt_setBkt_ne T (fun h => hsucc h.symm),
              plenAt_setBkt_ne T (fun h => hji h.symm)]
            exact hO j hj
    · have hplen_pos : 0 < plenAt T i := Nat.pos_of_ne_zero hempty
      obtain ⟨k2, e2, d2, hb2, hplen2⟩ := bkt_isSome_of_plen_pos hplen_pos
      have hs0 : s ≠ 0 := by
        intro h0
        subst h0
        rw [Nat.add_zero, Nat.mod_eq_of_lt hi, hb2] at hsE
        exact Option.noConfusion hsE
      by_cases hsteal : plenAt T i < p
      · -- swap the candidate with the poorer resident
        have hd2p : d2 + 1 < p := by omega
        have hpn : p ≤ n := by
          by_contra hc
          push_neg at hc
          refine no_full_walk (t := p - 1) (x := hash k) hlen hcard ?_ (by omega)
          intro s2 hs2
          exact hA7 s2 (by omega)
        obtain ⟨hd2n, hieq2⟩ := hH i k2 e2 d2 hb2
        have hcont2 := contentsM_setBkt T hilen (some (k, e, p - 1))
        rw [hb2, entryM_some, entryM_some] at hcont2
        have hcard2 : Multiset.card (contentsM (setBkt T i (some (k, e, p - 1)))) < n := by
          have := congrArg Multiset.card hcont2
          rw [Multiset.card_add, Multiset.card_add, Multiset.card_singleton,
            Multiset.card_singleton] at this
          omega
        have hH2 : HomeOK hash n (setBkt T i (some (k, e, p - 1))) := by
          intro i3 k3 e3 d3 hb3
          by_cases hii : i3 = i
          · subst hii
            rw [bkt_setBkt_self hilen] at hb3
            obtain ⟨hk, he, hd⟩ := triple_inj (Option.some.inj hb3)
            refine ⟨by omega, ?_⟩
            rw [← hk, ← hd, hieq]
          · rw [bkt_setBkt_ne T (fun h => hii h.symm)] at hb3
            exact hH i3 k3 e3 d3 hb3
        have hO2 : OrderOK n (setBkt T i (some (k, e, p - 1))) := by
          intro j hj
          by_cases hji : j = i
          · subst hji
            have hne : (j + 1) % n ≠ j := slot_ne_of_shift hj Nat.one_pos hn1
            rw [plenAt_setBkt_ne T (fun h => hne h.symm), plenAt_setBkt_self hilen,
              plenOf_some]
            have := hO j hj
            omega
          · by_cases hsucc : (j + 1) % n = i
            · have hjpred : j = (i + (n - 1)) % n := eq_pred_of_succ_mod hn hi hj hsucc
              rw [hsucc, plenAt_setBkt_self hilen, plenAt_setBkt_ne T (fun h => hji h.symm),
                plenOf_some]
              rw [hjpred]
              omega
            · rw [plenAt_setBkt_ne T (fun h => hsucc h.symm),
                plenAt_setBkt_ne T (fun h => hji h.symm)]
              exact hO j hj
        have hA6' : d2 + 1 + 1 ≤
            plenAt (setBkt T i (some (k, e, p - 1))) (((i + 1) % n + (n - 1)) % n) + 1 := by
          rw [succ_pred_mod hn hi, plenAt_setBkt_self hilen, plenOf_some]
          omega
        have hA7' : ∀ s2, s2 + 1 < d2 + 1 + 1 →
            0 < plenAt (setBkt T i (some (k, e, p - 1))) ((hash k2 + s2) % n) := by
          intro s2 hs2
          by_cases hsi : (hash k2 + s2) % n = i
          · rw [hsi, plenAt_setBkt_self hilen, plenOf_some]
            omega
          · rw [plenAt_setBkt_ne T (fun h => hsi h.symm)]
            have := walk_chain_of hH hO hb2 s2 (by omega)
            omega
        have hterm' : ∃ s2, s2 < fuel ∧ s2 < n ∧
            bkt (setBkt T i (some (k, e, p - 1))) (((i + 1) % n + s2) % n) = none := by
          refine ⟨s - 1, by omega, by omega, ?_⟩
          have heq : ((i + 1) % n + (s - 1)) % n = (i + s) % n := by
            have h1 : ((i + 1) % n + (s - 1)) % n = (i + 1 + (s - 1)) % n :=
              (Nat.mod_modEq (i + 1) n).add_right _
            rw [h1]
            congr 1
            omega
          rw [heq, bkt_setBkt_ne T (Ne.symm (slot_ne_of_shift hi (by omega) hsn))]
          exact hsE
        have hieq' : (i + 1) % n = (hash k2 + (d2 + 1 + 1 - 1)) % n := by
          rw [hieq2, mod_step]
          congr 1
        obtain ⟨Tf, hfeq, hfcap, hfid, hfsize, hflen, hfcont, hfH, hfO⟩ :=
          ih (setBkt T i (some (k, e, p - 1))) k2 e2 ((i + 1) % n) (d2 + 1 + 1) ret
            (by simp [hcap]) (by simp [hlen]) (Nat.mod_lt _ hn) (by omega) hieq'
            hcard2 hH2 hO2 hA6' hA7' hterm'
        refine ⟨Tf, ?_, hfcap, by simpa using hfid, by simpa using hfsize, hflen, ?_, hfH, hfO⟩
        · rw [insert_place_succ_steal hempty hsteal hb2, hmask]
          exact hfeq
        · rw [hfcont, hcont2]
      · -- the resident is at least as far along: advance
        have hge : p ≤ plenAt T i := not_lt.mp hsteal
        have hieq' : (i + 1) % n = (hash k + (p + 1 - 1)) % n := by
          rw [hieq, mod_step]
          congr 1
          omega
        have hA6' : p + 1 ≤ plenAt T (((i + 1) % n + (n - 1)) % n) + 1 := by
          rw [succ_pred_mod hn hi]
          omega
        have hA7' : ∀ s2, s2 + 1 < p + 1 → 0 < plenAt T ((hash k + s2) % n) := by
          intro s2 hs2
          rcases Nat.lt_or_ge (s2 + 1) p with hlt | hge2
          · exact hA7 s2 hlt
          · have h1 : s2 = p - 1 := by omega
            subst h1
            rw [← hieq]
            omega
        have hterm' : ∃ s2, s2 < fuel ∧ s2 < n ∧ bkt T (((i + 1) % n + s2) % n) = none := by
          refine ⟨s - 1, by omega, by omega, ?_⟩
          have heq : ((i + 1) % n + (s - 1)) % n = (i + s) % n := by
            have h1 : ((i + 1) % n + (s - 1)) % n = (i + 1 + (s - 1)) % n :=
              (Nat.mod_modEq (i + 1) n).add_right _
            rw [h1]
            congr 1
            omega
          rw [heq]
          exact hsE
        obtain ⟨Tf, hfeq, hfcap, hfid, hfsize, hflen, hfcont, hfH, hfO⟩ :=
          ih T k e ((i + 1) % n) (p + 1) ret hcap hlen (Nat.mod_lt _ hn) (by omega)
            hieq' hcard hH hO hA6' hA7' hterm'
        refine ⟨Tf, ?_, hfcap, hfid, hfsize, hflen, hfcont, hfH, hfO⟩
        rw [insert_place_succ_skip hempty hsteal, hmask]
        exact hfeq

end Place

/-! ### The outer loop of `cc4_map_insert_raw` -/

section InsertRaw

variable {κ ε : Type} [DecidableEq κ]

theorem keyAt_ne_of_not_mem {T : Table κ ε} {k : κ} (habs : k ∉ keysM T) :
    ∀ i, keyAt T i ≠ some k := by
  intro i hkey
  rw [keyAt] at hkey
  rcases hb : bkt T i with _ | ⟨k2, e2, d2⟩
  · rw [hb] at hkey
    exact Option.noConfusion hkey
  · rw [hb, Option.map_some'] at hkey
    have : k2 = k := by simpa using hkey
    subst this
    exact habs (mem_keysM_iff.mpr ⟨e2, mem_contents_iff.mpr ⟨i, d2, hb⟩⟩)

theorem insert_raw_loop_succ_steal {replace : Bool} {fuel : ℕ} {T : Table κ ε}
    {k : κ} {e : ε} {i p : ℕ} (hsteal : plenAt T i < p) :
    cc4_map_insert_raw_loop replace (fuel + 1) T k e i p =
      cc4_map_insert_place (T.cap + 1) { T with size := T.size + 1 } k e i p i := by
  rw [cc4_map_insert_raw_loop, if_pos hsteal]

theorem insert_raw_loop_succ_found {replace : Bool} {fuel : ℕ} {T : Table κ ε}
    {k : κ} {e : ε} {i p : ℕ} (hge : ¬ plenAt T i < p)
    (hcond : p = plenAt T i ∧ keyAt T i = some k) :
    cc4_map_insert_raw_loop replace (fuel + 1) T k e i p =
      some ((if replace then setBkt T i (some (k, e, p - 1)) else T), i) := by
  rw [cc4_map_insert_raw_loop, if_neg hge, if_pos hcond]

theorem insert_raw_loop_succ_next {replace : Bool} {fuel : ℕ} {T : Table κ ε}
    {k : κ} {e : ε} {i p : ℕ} (hge : ¬ plenAt T i < p)
    (hcondF : ¬ (p = plenAt T i ∧ keyAt T i = some k)) :
    cc4_map_insert_raw_loop replace (fuel + 1) T k e i p =
      cc4_map_insert_raw_loop replace fuel T k e (cc4_mask T.cap (i + 1)) (p + 1) := by
  rw [cc4_map_insert_raw_loop, if_neg hge, if_neg hcondF]

/-- The outer insertion loop on a key that is nowhere in the table: it steals
a bucket and the placement loop deposits everything, growing the contents by
exactly the new pair. -/
theorem insert_raw_loop_absent (hash : κ → ℕ) {n : ℕ} (m : ℕ) (hm : n = 2 ^ m)
    (hn8 : 8 ≤ n) {T : Table κ ε} {k : κ} (e : ε) (replace : Bool)
    (hcap : T.cap = n) (hlen : T.buckets.length = n)
    (hcard : Multiset.card (contentsM T) < n)
    (hH : HomeOK hash n T) (hO : OrderOK n T)
    (habs : ∀ i, keyAt T i ≠ some k) :
    ∀ fuel t, 1 ≤ t →
      (∀ s, s + 1 < t → s + 1 ≤ plenAt T ((hash k + s) % n)) →
      (∃ s, s < n ∧ s + 2 ≤ fuel + t ∧ bkt T ((hash k + s) % n) = none) →
      ∃ Tf j, cc4_map_insert_raw_loop replace fuel T k e ((hash k + (t - 1)) % n) t
          = some (Tf, j) ∧
        Tf.cap = n ∧ Tf.allocId = T.allocId ∧ Tf.size = T.size + 1 ∧
        Tf.buckets.length = n ∧
        contentsM Tf = contentsM T + {(k, e)} ∧ HomeOK hash n Tf ∧ OrderOK n Tf := by
  have hn : 0 < n := by omega
  intro fuel
  induction fuel with
  | zero =>
    rintro t ht hwalk ⟨s, hsn, hsfuel, hsE⟩
    have hst : ¬ s + 1 < t := by
      intro hc
      have := hwalk s hc
      rw [plenAt, hsE] at this
      simp [plenOf] at this
    omega
  | succ fuel ih =>
    rintro t ht hwalk ⟨s, hsn, hsfuel, hsE⟩
    have hst : t - 1 ≤ s := by
      by_contra hc
      push_neg at hc
      have := hwalk s (by omega)
      rw [plenAt, hsE] at this
      simp [plenOf] at this
    set i := (hash k + (t - 1)) % n with hidef
    have hi : i < n := Nat.mod_lt _ hn
    by_cases hsteal : plenAt T i < t
    · -- take the bucket and run the placement loop
      have hpredB : t ≤ plenAt T ((i + (n - 1)) % n) + 1 := by
        rcases Nat.eq_or_lt_of_le ht with h1 | h1
        · omega
        · have hpred : (i + (n - 1)) % n = (hash k + (t - 2)) % n := by
            rw [hidef]
            have h2 : ((hash k + (t - 1)) % n + (n - 1)) % n
                = (hash k + (t - 1) + (n - 1)) % n :=
              (Nat.mod_modEq (hash k + (t - 1)) n).add_right _
            rw [h2]
            have h3 : hash k + (t - 1) + (n - 1) = hash k + (t - 2) + n := by omega
            rw [h3, Nat.add_mod_right]
          have := hwalk (t - 2) (by omega)
          rw [← hpred] at this
          omega
      have hocc : ∀ s2, s2 + 1 < t → 0 < plenAt T ((hash k + s2) % n) := by
        intro s2 hs2
        have := hwalk s2 hs2
        omega
      have htermP : ∃ s2, s2 < T.cap + 1 ∧ s2 < n ∧ bkt T ((i + s2) % n) = none := by
        refine ⟨s - (t - 1), by omega, by omega, ?_⟩
        have heq : (i + (s - (t - 1))) % n = (hash k + s) % n := by
          rw [hidef]
          have h2 : ((hash k + (t - 1)) % n + (s - (t - 1))) % n
              = (hash k + (t - 1) + (s - (t - 1))) % n :=
            (Nat.mod_modEq (hash k + (t - 1)) n).add_right _
          rw [h2]
          congr 1
          omega
        rw [heq]
        exact hsE
      obtain ⟨Tf, hfeq, hfcap, hfid, hfsize, hflen, hfcont, hfH, hfO⟩ :=
        insert_place_spec hash m hm hn8 (T.cap + 1)
          { T with size := T.size + 1 } k e i t i hcap hlen hi ht
          hidef hcard hH hO hpredB hocc htermP
      refine ⟨Tf, i, ?_, hfcap, by simpa using hfid, by simpa using hfsize, hflen,
        by simpa using hfcont, hfH, hfO⟩
      rw [insert_raw_loop_succ_steal hsteal]
      exact hfeq
    · -- not stealing; the key-match branch cannot fire; advance
      have hcondF : ¬ (t = plenAt T i ∧ keyAt T i = some k) := by
        rintro ⟨_, hkey⟩
        exact habs i hkey
      have hstep : cc4_mask T.cap (i + 1) = (hash k + ((t + 1) - 1)) % n := by
        rw [hcap, cc4_mask_eq_mod m hm, hidef, mod_step]
        congr 1
        omega
      rw [insert_raw_loop_succ_next hsteal hcondF, hstep]
      have hipos : 0 < plenAt T i := by omega
      have hwalk' : ∀ s2, s2 + 1 < t + 1 → s2 + 1 ≤ plenAt T ((hash k + s2) % n) := by
        intro s2 hs2
        rcases Nat.lt_or_ge (s2 + 1) t with h1 | h1
        · exact hwalk s2 h1
        · have h2 : s2 = t - 1 := by omega
          subst h2
          rw [← hidef]
          omega
      have hterm' : ∃ s2, s2 < n ∧ s2 + 2 ≤ fuel + (t + 1) ∧
          bkt T ((hash k + s2) % n) = none := by
        refine ⟨s, hsn, by omega, hsE⟩
      exact ih (t + 1) (by omega) hwalk' hterm'

/-- The outer insertion loop on a key already stored at bucket `j`: the walk
reaches `j` without stealing and returns it, overwriting in place exactly
when `replace` is set. -/
theorem insert_raw_loop_present (hash : κ → ℕ) {n : ℕ} (hn8 : 8 ≤ n) (m : ℕ)
    (hm : n = 2 ^ m) {T : Table κ ε} {k : κ} {estar : ε} {dstar j : ℕ} (e : ε)
    (replace : Bool) (hcap : T.cap = n) (hH : HomeOK hash n T) (hO : OrderOK n T)
    (hnd : (keysM T).Nodup) (hb : bkt T j = some (k, estar, dstar)) :
    ∀ fuel t, 1 ≤ t → t ≤ dstar + 1 → dstar + 2 ≤ fuel + t →
      cc4_map_insert_raw_loop replace fuel T k e ((hash k + (t - 1)) % n) t =
        some ((if replace then setBkt T j (some (k, e, dstar)) else T), j) := by
  have hn : 0 < n := by omega
  obtain ⟨hdn, hjeq⟩ := hH j k estar dstar hb
  intro fuel
  induction fuel with
  | zero =>
    intro t ht htd hfuel
    omega
  | succ fuel ih =>
    intro t ht htd hfuel
    set i := (hash k + (t - 1)) % n with hidef
    have hi : i < n := Nat.mod_lt _ hn
    have hchain : t ≤ plenAt T i := by
      have := walk_chain_of hH hO hb (t - 1) (by omega)
      rw [← hidef] at this
      omega
    have hge : ¬ plenAt T i < t := by omega
    rcases Nat.eq_or_lt_of_le htd with h1 | h1
    · -- t = dstar + 1: this is the key's bucket
      have hij : i = j := by
        rw [hidef, hjeq]
        congr 1
        omega
      have hcond : t = plenAt T i ∧ keyAt T i = some k := by
        constructor
        · rw [hij, plenAt, hb, plenOf_some]
          omega
        · rw [hij, keyAt, hb, Option.map_some']
      rw [insert_raw_loop_succ_found hge hcond, hij]
      have hd1 : t - 1 = dstar := by omega
      rw [hd1]
    · -- t ≤ dstar: no match here, advance
      have hcondF : ¬ (t = plenAt T i ∧ keyAt T i = some k) := by
        rintro ⟨hp, hkey⟩
        rw [keyAt] at hkey
        rcases hb2 : bkt T i with _ | ⟨k2, e2, d2⟩
        · rw [hb2] at hkey
          exact Option.noConfusion hkey
        · rw [hb2, Option.map_some'] at hkey
          have : k2 = k := by simpa using hkey
          subst this
          have hij := bkt_key_unique hnd hb2 hb
          rw [hij] at hb2
          have hdd : d2 = dstar := by
            have h2 := Option.some.inj (hb2.symm.trans hb)
            exact (triple_inj h2).2.2
          rw [plenAt, hij, hb, plenOf_some] at hp
          omega
      have hstep : cc4_mask T.cap (i + 1) = (hash k + ((t + 1) - 1)) % n := by
        rw [hcap, cc4_mask_eq_mod m hm, hidef, mod_step]
        congr 1
        omega
      rw [insert_raw_loop_succ_next hge hcondF, hstep]
      exact ih (t + 1) (by omega) (by omega) (by omega)

end InsertRaw

/-! ### `cc4_map_insert_raw` against well-formed tables -/

section InsertRawSpec

variable {κ ε : Type} [DecidableEq κ]

theorem card_contents_le_cap {hash : κ → ℕ} {T : Table κ ε} (hW : WF hash T) :
    Multiset.card (contentsM T) ≤ T.cap := by
  rw [card_contentsM, contents, ← hW.hlen]
  exact List.length_filterMap_le _ _

/-- Inserting a fresh key into a well-formed, non-full table: success, the
contents grow by the new pair, size grows by one. -/
theorem cc4_map_insert_raw_spec_absent {hash : κ → ℕ} {T : Table κ ε}
    (hW : WF hash T) (hc0 : T.cap ≠ 0)
    (hsz : Multiset.card (contentsM T) < T.cap)
    {k : κ} (habs : k ∉ keysM T) (e : ε) (replace : Bool) :
    ∃ Tf j, cc4_map_insert_raw hash T e k replace = some (Tf, j) ∧ WF hash Tf ∧
      Tf.cap = T.cap ∧ Tf.allocId = T.allocId ∧ Tf.size = T.size + 1 ∧
      contentsM Tf = contentsM T + {(k, e)} := by
  obtain ⟨m, hm, hn8⟩ := hW.hpow.resolve_left hc0
  have hn : 0 < T.cap := by omega
  have hterm : ∃ s, s < T.cap ∧ s + 2 ≤ (T.cap + 1) + 1 ∧
      bkt T ((hash k + s) % T.cap) = none := by
    obtain ⟨j, hj, hempty⟩ := exists_empty_bucket hW.hlen hsz
    obtain ⟨s, hs, hxs⟩ := mod_solve (x := hash k) hj
    exact ⟨s, hs, by omega, by rw [hxs]; exact hempty⟩
  obtain ⟨Tf, j, hfeq, hfcap, hfid, hfsize, hflen, hfcont, hfH, hfO⟩ :=
    insert_raw_loop_absent hash m hm hn8 e replace rfl hW.hlen hsz (wf_homeOK hW)
      (wf_orderOK hW) (keyAt_ne_of_not_mem habs) (T.cap + 1) 1 le_rfl
      (by intro s hs; omega) hterm
  have hkeysf : keysM Tf = k ::ₘ keysM T := by
    rw [keysM, hfcont, Multiset.map_add]
    have : Multiset.map Prod.fst ({(k, e)} : Multiset (κ × ε)) = {k} := by simp
    rw [this, add_comm, ← Multiset.singleton_add]
    rfl
  have hcard' : Multiset.card (contentsM Tf) = Multiset.card (contentsM T) + 1 := by
    rw [hfcont]
    simp
  refine ⟨Tf, j, ?_, ?_, hfcap, hfid, hfsize, hfcont⟩
  · rw [cc4_map_insert_raw, cc4_mask_eq_mod m hm]
    have h0 : hash k % T.cap = (hash k + (1 - 1)) % T.cap := by norm_num
    rw [h0]
    exact hfeq
  · refine ⟨hflen.trans hfcap.symm, Or.inr ⟨m, hfcap.trans hm, by omega⟩, ?_, ?_, ?_, ?_⟩
    · rw [hfsize, hcard', hW.hsize]
    · show HomeOK hash Tf.cap Tf
      rw [hfcap]
      exact hfH
    · show OrderOK Tf.cap Tf
      rw [hfcap]
      exact hfO
    · rw [hkeysf]
      exact Multiset.nodup_cons.mpr ⟨habs, hW.hkeys⟩

/-- Overwriting the element (and key) of a stored key in place preserves
well-formedness and swaps exactly that pair in the contents. -/
theorem wf_replace {hash : κ → ℕ} {T : Table κ ε} (hW : WF hash T) {j : ℕ}
    {k : κ} {estar : ε} {dstar : ℕ} (hb : bkt T j = some (k, estar, dstar)) (e : ε) :
    WF hash (setBkt T j (some (k, e, dstar))) ∧
      contentsM (setBkt T j (some (k, e, dstar))) + {(k, estar)}
        = contentsM T + {(k, e)} ∧
      keysM (setBkt T j (some (k, e, dstar))) = keysM T := by
  have hjlen := lt_len_of_bkt_some hb
  have hcont := contentsM_setBkt T hjlen (some (k, e, dstar))
  rw [hb, entryM_some, entryM_some] at hcont
  have hplen : ∀ i, plenAt (setBkt T j (some (k, e, dstar))) i = plenAt T i := by
    intro i
    by_cases hij : i = j
    · subst hij
      rw [plenAt_setBkt_self hjlen, plenOf_some, plenAt, hb, plenOf_some]
    · rw [plenAt_setBkt_ne T (fun h => hij h.symm)]
  have hkeq : keysM (setBkt T j (some (k, e, dstar))) = keysM T := by
    have := congrArg (Multiset.map Prod.fst) hcont
    rw [Multiset.map_add, Multiset.map_add] at this
    simp only [Multiset.map_singleton] at this
    exact add_right_cancel this
  refine ⟨⟨by simpa using hW.hlen, by simpa using hW.hpow, ?_, ?_, ?_, ?_⟩, hcont, hkeq⟩
  · have := congrArg Multiset.card hcont
    simp only [Multiset.card_add, Multiset.card_singleton] at this
    have h2 : Multiset.card (contentsM (setBkt T j (some (k, e, dstar))))
        = Multiset.card (contentsM T) := by omega
    rw [size_setBkt, h2, hW.hsize]
  · intro i k3 e3 d3 hb3
    show d3 + 1 ≤ T.cap ∧ i = (hash k3 + d3) % T.cap
    by_cases hij : i = j
    · subst hij
      rw [bkt_setBkt_self hjlen] at hb3
      obtain ⟨hk, he, hd⟩ := triple_inj (Option.some.inj hb3)
      have := hW.hhome i k estar dstar hb
      rw [← hk, ← hd]
      exact this
    · rw [bkt_setBkt_ne T (fun h => hij h.symm)] at hb3
      exact hW.hhome i k3 e3 d3 hb3
  · intro i hi
    show plenAt _ ((i + 1) % T.cap) ≤ plenAt _ i + 1
    rw [hplen, hplen]
    exact hW.horder i hi
  · rw [hkeq]
    exact hW.hkeys

/-- Inserting a key already stored at bucket `j`: the walk returns `j`, and
the table is overwritten there exactly when `replace` is set. -/
theorem cc4_map_insert_raw_spec_present {hash : κ → ℕ} {T : Table κ ε}
    (hW : WF hash T) {j : ℕ} {k : κ} {estar : ε} {dstar : ℕ}
    (hb : bkt T j = some (k, estar, dstar)) (e : ε) (replace : Bool) :
    cc4_map_insert_raw hash T e k replace =
      some ((if replace then setBkt T j (some (k, e, dstar)) else T), j) := by
  have hc0 : T.cap ≠ 0 := by
    have := wf_cap_pos hW hb
    omega
  obtain ⟨m, hm, hn8⟩ := hW.hpow.resolve_left hc0
  have hdn := (hW.hhome j k estar dstar hb).1
  rw [cc4_map_insert_raw, cc4_mask_eq_mod m hm]
  have h0 : hash k % T.cap = (hash k + (1 - 1)) % T.cap := by norm_num
  rw [h0]
  exact insert_raw_loop_present hash hn8 m hm e replace rfl (wf_homeOK hW)
    (wf_orderOK hW) hW.hkeys hb (T.cap + 1) 1 le_rfl (by omega) (by omega)

end InsertRawSpec

/-! ### Rehashing (`cc4_map_make_rehash`) and `cc4_map_reserve` -/

section Rehash

variable {κ ε : Type} [DecidableEq κ]

/-- On a key absent from the table, the unique-insert loop behaves exactly as
the raw insert loop (the skipped branch never fires). -/
theorem unique_loop_eq_raw_loop {T : Table κ ε} {k : κ}
    (habs : ∀ i, keyAt T i ≠ some k) (e : ε) :
    ∀ fuel i p, cc4_map_insert_raw_unique_loop fuel T k e i p
      = cc4_map_insert_raw_loop false fuel T k e i p := by
  intro fuel
  induction fuel with
  | zero => intro i p; rfl
  | succ fuel ih =>
    intro i p
    rw [cc4_map_insert_raw_unique_loop, cc4_map_insert_raw_loop]
    by_cases h : plenAt T i < p
    · rw [if_pos h, if_pos h]
    · rw [if_neg h, if_neg h, if_neg (by rintro ⟨_, hk⟩; exact habs i hk), ih]

theorem insert_raw_unique_eq {hash : κ → ℕ} {T : Table κ ε} {k : κ}
    (habs : ∀ i, keyAt T i ≠ some k) (e : ε) :
    cc4_map_insert_raw_unique hash T e k = cc4_map_insert_raw hash T e k false := by
  rw [cc4_map_insert_raw_unique, cc4_map_insert_raw, unique_loop_eq_raw_loop habs]

theorem filterMap_map_eq (l : List (Bucket κ ε)) :
    l.filterMap bucketEntry = (l.filterMap id).map (fun p => (p.1, p.2.1)) := by
  induction l with
  | nil => rfl
  | cons a t ih =>
    rcases a with _ | ⟨k2, e2, d2⟩
    · simpa [List.filterMap_cons, bucketEntry] using ih
    · simpa [List.filterMap_cons, bucketEntry] using ih

/-- The re-insertion fold of `cc4_map_make_rehash`: folding unique inserts of
pairwise-fresh keys over a well-formed accumulator with room for them all. -/
theorem rehash_fold_spec (hash : κ → ℕ) :
    ∀ (L : List (κ × ε × ℕ)) (acc : Table κ ε), WF hash acc → acc.cap ≠ 0 →
      Multiset.card (contentsM acc) + L.length ≤ acc.cap →
      (∀ p ∈ L, p.1 ∉ keysM acc) → (L.map (fun p => p.1)).Nodup →
      ∃ Tf, L.foldlM
          (fun acc2 p => (cc4_map_insert_raw_unique hash acc2 p.2.1 p.1).map Prod.fst)
          acc = some Tf ∧
        WF hash Tf ∧ Tf.cap = acc.cap ∧ Tf.allocId = acc.allocId ∧
        contentsM Tf = contentsM acc
          + ((L.map (fun p => (p.1, p.2.1)) : List (κ × ε)) : Multiset (κ × ε)) := by
  intro L
  induction L with
  | nil =>
    intro acc hW _ _ _ _
    exact ⟨acc, by rw [List.foldlM_nil]; rfl, hW, rfl, rfl, by simp⟩
  | cons p L ih =>
    rintro acc hW hc0 hroom hfresh hnd
    have habs : p.1 ∉ keysM acc := hfresh p (List.mem_cons_self _ _)
    obtain ⟨T1, j, h1eq, h1W, h1cap, h1id, h1size, h1cont⟩ :=
      cc4_map_insert_raw_spec_absent hW hc0
        (by rw [List.length_cons] at hroom; omega) habs p.2.1 false
    have hkeys1 : keysM T1 = p.1 ::ₘ keysM acc := by
      rw [keysM, h1cont, Multiset.map_add]
      have h2 : Multiset.map Prod.fst ({(p.1, p.2.1)} : Multiset (κ × ε)) = {p.1} := by simp
      rw [h2, add_comm, ← Multiset.singleton_add]
      rfl
    rw [List.map_cons, List.nodup_cons] at hnd
    have hroom1 : Multiset.card (contentsM T1) + L.length ≤ T1.cap := by
      have h2 : Multiset.card (contentsM T1) = Multiset.card (contentsM acc) + 1 := by
        rw [h1cont]
        simp
      rw [h2, h1cap]
      rw [List.length_cons] at hroom
      omega
    have hfresh1 : ∀ q ∈ L, q.1 ∉ keysM T1 := by
      intro q hq hmem
      rw [hkeys1, Multiset.mem_cons] at hmem
      rcases hmem with h2 | h2
      · exact hnd.1 (h2 ▸ List.mem_map.mpr ⟨q, hq, rfl⟩)
      · exact hfresh q (List.mem_cons_of_mem _ hq) h2
    obtain ⟨Tf, hfeq, hfW, hfcap, hfid, hfcont⟩ :=
      ih T1 h1W (by omega) hroom1 hfresh1 hnd.2
    refine ⟨Tf, ?_, hfW, hfcap.trans h1cap, hfid.trans h1id, ?_⟩
    · rw [List.foldlM_cons, insert_raw_unique_eq (keyAt_ne_of_not_mem habs), h1eq]
      simpa using hfeq
    · rw [hfcont, h1cont, List.map_cons, ← Multiset.cons_coe, add_assoc,
        Multiset.singleton_add]

theorem bkt_replicate_none {sz cap aid i : ℕ} :
    bkt (⟨sz, cap, aid, List.replicate cap (none : Bucket κ ε)⟩ : Table κ ε) i = none := by
  show (List.replicate cap (none : Bucket κ ε)).getD i none = none
  rcases Nat.lt_or_ge i cap with hi | hi
  · rw [List.getD_eq_getElem _ _ (by simpa using hi), List.getElem_replicate]
  · exact List.getD_eq_default _ _ (by simpa using hi)

theorem contents_replicate_none {sz cap aid : ℕ} :
    contents (⟨sz, cap, aid, List.replicate cap (none : Bucket κ ε)⟩ : Table κ ε) = [] := by
  show (List.replicate cap (none : Bucket κ ε)).filterMap bucketEntry = []
  induction cap with
  | zero => rfl
  | succ c ih => simpa [List.replicate_succ, List.filterMap_cons, bucketEntry] using ih

theorem wf_fresh_table (hash : κ → ℕ) {cap m : ℕ} (hm : cap = 2 ^ m) (h8 : 8 ≤ cap)
    (aid : ℕ) :
    WF hash (⟨0, cap, aid, List.replicate cap (none : Bucket κ ε)⟩ : Table κ ε) := by
  refine ⟨by simp, Or.inr ⟨m, hm, h8⟩, ?_, ?_, ?_, ?_⟩
  · rw [contentsM, contents_replicate_none]
    rfl
  · intro i k e d hb
    rw [bkt_replicate_none] at hb
    exact Option.noConfusion hb
  · intro i _
    have h0 : ∀ i2, plenAt (⟨0, cap, aid, List.replicate cap (none : Bucket κ ε)⟩ :
        Table κ ε) i2 = 0 := by
      intro i2
      rw [plenAt, bkt_replicate_none]
      rfl
    rw [h0, h0]
    omega
  · rw [keysM, contentsM, contents_replicate_none]
    simp

/-- Allocation failure makes `cc4_map_make_rehash` report NULL immediately. -/
theorem make_rehash_alloc_fail (hash : κ → ℕ) (T : Table κ ε) (cap freshId : ℕ) :
    cc4_map_make_rehash hash T cap false freshId = some none := rfl

/-- A successful rehash into a power-of-two capacity that fits the current
entries: a fresh well-formed table with identical contents and size. -/
theorem cc4_map_make_rehash_spec {hash : κ → ℕ} {T : Table κ ε} (hW : WF hash T)
    {cap m : ℕ} (hm : cap = 2 ^ m) (h8 : 8 ≤ cap) (hfit : T.size ≤ cap)
    (freshId : ℕ) :
    ∃ Tf, cc4_map_make_rehash hash T cap true freshId = some (some Tf) ∧
      WF hash Tf ∧ Tf.cap = cap ∧ Tf.allocId = freshId ∧ Tf.size = T.size ∧
      contentsM Tf = contentsM T := by
  have hinitW := wf_fresh_table (ε := ε) hash hm h8 freshId
  have hLlen : (T.buckets.filterMap id).length = T.size := by
    have h2 := filterMap_map_eq T.buckets
    have h3 := congrArg List.length h2
    rw [List.length_map] at h3
    rw [← h3, ← contents, ← card_contentsM, hW.hsize]
  have hLnd : ((T.buckets.filterMap id).map (fun p => p.1)).Nodup := by
    have h2 : (T.buckets.filterMap id).map (fun p => p.1)
        = (contents T).map Prod.fst := by
      rw [contents, filterMap_map_eq, List.map_map]
      rfl
    rw [h2]
    exact keysM_nodup_iff.mp hW.hkeys
  have hc0' : cap ≠ 0 := by omega
  obtain ⟨Tf, hfeq, hfW, hfcap, hfid, hfcont⟩ :=
    rehash_fold_spec hash (T.buckets.filterMap id)
      ⟨0, cap, freshId, List.replicate cap none⟩ hinitW hc0'
      (by rw [contentsM, contents_replicate_none, hLlen]; simpa using hfit)
      (by
        intro p _
        rw [keysM, contentsM, contents_replicate_none]
        simp)
      hLnd
  have hcont' : contentsM Tf = contentsM T := by
    rw [hfcont, contentsM, contents_replicate_none]
    show (0 : Multiset (κ × ε)) + _ = _
    rw [zero_add, contentsM, contents, filterMap_map_eq]
  refine ⟨Tf, ?_, hfW, hfcap, hfid, ?_, hcont'⟩
  · rw [cc4_map_make_rehash, if_pos rfl, hfeq]
    rfl
  · rw [hfW.hsize, hcont', ← hW.hsize]

/-- `cc4_map_reserve` when the capacity already suffices: a no-op. -/
theorem cc4_map_reserve_noop {hash : κ → ℕ} {T : Table κ ε} {n2 : ℕ} {ml : ℚ}
    (h : cc4_map_min_cap_for_n_els n2 ml ≤ T.cap) (allocOk : Bool) (freshId : ℕ) :
    cc4_map_reserve hash T n2 ml allocOk freshId = some (T, true) := by
  rw [cc4_map_reserve]
  simp only [if_pos h]

/-- `cc4_map_reserve` with a failing allocator when growth is needed: the
table is returned untouched with a failure flag. -/
theorem cc4_map_reserve_fail {hash : κ → ℕ} {T : Table κ ε} {n2 : ℕ} {ml : ℚ}
    (h : ¬ cc4_map_min_cap_for_n_els n2 ml ≤ T.cap) (freshId : ℕ) :
    cc4_map_reserve hash T n2 ml false freshId = some (T, false) := by
  rw [cc4_map_reserve]
  simp only [if_neg h, make_rehash_alloc_fail]

/-- `cc4_map_reserve` with a successful allocator when growth is needed:
rehash into exactly the minimum admissible capacity. -/
theorem cc4_map_reserve_grow {hash : κ → ℕ} {T : Table κ ε} (hW : WF hash T)
    {n2 : ℕ} {ml : ℚ} (hml : 0 < ml)
    (h : ¬ cc4_map_min_cap_for_n_els n2 ml ≤ T.cap) (freshId : ℕ) :
    ∃ Tf, cc4_map_reserve hash T n2 ml true freshId = some (Tf, true) ∧
      WF hash Tf ∧ Tf.cap = cc4_map_min_cap_for_n_els n2 ml ∧
      Tf.allocId = freshId ∧ Tf.size = T.size ∧ contentsM Tf = contentsM T := by
  have hn2 : 1 ≤ n2 := by
    by_contra hc
    push_neg at hc
    have : n2 = 0 := by omega
    subst this
    rw [min_cap_zero] at h
    omega
  obtain ⟨⟨m, hmeq⟩, h8, hbound, hmin⟩ := min_cap_spec hml hn2
  have hfit : T.size ≤ cc4_map_min_cap_for_n_els n2 ml := by
    have h1 := card_contents_le_cap hW
    rw [← hW.hsize] at h1
    omega
  obtain ⟨Tf, hfeq, hfW, hfcap, hfid, hfsize, hfcont⟩ :=
    cc4_map_make_rehash_spec hW hmeq h8 hfit freshId
  refine ⟨Tf, ?_, hfW, hfcap, hfid, hfsize, hfcont⟩
  rw [cc4_map_reserve]
  simp only [if_neg h, hfeq]

end Rehash

/-! ### `cc4_map_insert` -/

section Insert

variable {κ ε : Type} [DecidableEq κ]

theorem mem_contents_congr {T1 T2 : Table κ ε} (h : contentsM T1 = contentsM T2)
    (p : κ × ε) : p ∈ contents T1 ↔ p ∈ contents T2 := by
  rw [← Multiset.mem_coe, ← Multiset.mem_coe]
  show p ∈ contentsM T1 ↔ p ∈ contentsM T2
  rw [h]

theorem keysM_congr {T1 T2 : Table κ ε} (h : contentsM T1 = contentsM T2) :
    keysM T1 = keysM T2 := by
  rw [keysM, keysM, h]

theorem keysM_cons_of_contents {T1 T2 : Table κ ε} {k : κ} {e : ε}
    (h : contentsM T2 = contentsM T1 + {(k, e)}) : keysM T2 = k ::ₘ keysM T1 := by
  rw [keysM, h, Multiset.map_add]
  have h2 : Multiset.map Prod.fst ({(k, e)} : Multiset (κ × ε)) = {k} := by simp
  rw [h2, add_comm, ← Multiset.singleton_add]
  rfl

/-- When the load-factor guard of `cc4_map_insert` fires, the current capacity
is below the minimum admissible one, so `cc4_map_reserve` must allocate. -/
theorem guard_needs_growth {ml : ℚ} (hml0 : 0 < ml) {sz cap : ℕ}
    (hguard : (cap : ℚ) * ml < (sz : ℚ) + 1) :
    ¬ cc4_map_min_cap_for_n_els (sz + 1) ml ≤ cap := by
  intro hle
  obtain ⟨_, _, hbound, _⟩ := min_cap_spec hml0 (n := sz + 1) (by omega)
  have h2 : ((cc4_map_min_cap_for_n_els (sz + 1) ml : ℕ) : ℚ) ≤ (cap : ℚ) := by
    exact_mod_cast hle
  have h3 : ((sz + 1 : ℕ) : ℚ) = (sz : ℚ) + 1 := by push_cast; ring
  rw [h3] at hbound
  nlinarith

/-- A failed allocation during the load-factor growth of `cc4_map_insert`
(which happens before any key search) reports failure with the table handle
untouched. -/
theorem cc4_map_insert_fail {hash : κ → ℕ} {T : Table κ ε} {ml : ℚ} (hml0 : 0 < ml)
    (hguard : (T.cap : ℚ) * ml < (T.size : ℚ) + 1) (k : κ) (e : ε) (replace : Bool)
    (freshId : ℕ) :
    cc4_map_insert hash T e k replace ml false freshId = some (T, none) := by
  rw [cc4_map_insert, if_pos hguard,
    cc4_map_reserve_fail (guard_needs_growth hml0 hguard) freshId]

/-- The behaviour of a raw insert (after any growth) on a well-formed,
non-full table, as a finite-map update. -/
theorem insert_core_spec {hash : κ → ℕ} {T2 : Table κ ε} (h2W : WF hash T2)
    (hc0 : T2.cap ≠ 0) (hsz2 : Multiset.card (contentsM T2) < T2.cap)
    (k : κ) (e : ε) (replace : Bool) :
    ∃ Tf r, cc4_map_insert_raw hash T2 e k replace = some (Tf, r) ∧ WF hash Tf ∧
      Tf.cap = T2.cap ∧
      (k ∈ keysM T2 → Tf.size = T2.size) ∧
      (k ∉ keysM T2 → Tf.size = T2.size + 1) ∧
      (∀ k2 e2, k2 ≠ k → ((k2, e2) ∈ contents Tf ↔ (k2, e2) ∈ contents T2)) ∧
      (replace = true → (k, e) ∈ contents Tf) ∧
      (k ∉ keysM T2 → (k, e) ∈ contents Tf) ∧
      (∀ k2, k2 ∈ keysM Tf ↔ k2 ∈ keysM T2 ∨ k2 = k) := by
  by_cases hmem : k ∈ keysM T2
  · obtain ⟨estar, hestar⟩ := mem_keysM_iff.mp hmem
    obtain ⟨j, dstar, hb⟩ := mem_contents_iff.mp hestar
    have hjlen := lt_len_of_bkt_some hb
    have hraw := cc4_map_insert_raw_spec_present h2W hb e replace
    rcases replace with _ | _
    · -- replace = false: the table is untouched
      rw [if_neg (by simp)] at hraw
      refine ⟨T2, j, hraw, h2W, rfl, fun _ => rfl, fun hc => absurd hmem hc, ?_, ?_, ?_, ?_⟩
      · intro k2 e2 _
        rfl
      · intro hfalse
        exact absurd hfalse (by simp)
      · intro hc
        exact absurd hmem hc
      · intro k2
        constructor
        · exact fun h => Or.inl h
        · rintro (h | rfl)
          · exact h
          · exact hmem
    · -- replace = true: overwrite in place
      rw [if_pos rfl] at hraw
      obtain ⟨hWrep, hcontrep, hkeysrep⟩ := wf_replace h2W hb e
      refine ⟨setBkt T2 j (some (k, e, dstar)), j, hraw, hWrep, by simp,
        fun _ => by simp, fun hc => absurd hmem hc, ?_, ?_, ?_, ?_⟩
      · intro k2 e2 hne
        constructor
        · intro hmemf
          have h1 : (k2, e2) ∈ contentsM (setBkt T2 j (some (k, e, dstar))) + {(k, estar)} :=
            Multiset.mem_add.mpr (Or.inl (Multiset.mem_coe.mpr hmemf))
          rw [hcontrep] at h1
          rcases Multiset.mem_add.mp h1 with h2 | h2
          · exact Multiset.mem_coe.mp h2
          · exact absurd (congrArg Prod.fst (Multiset.mem_singleton.mp h2)) hne
        · intro hmemf
          have h1 : (k2, e2) ∈ contentsM T2 + {(k, e)} :=
            Multiset.mem_add.mpr (Or.inl (Multiset.mem_coe.mpr hmemf))
          rw [← hcontrep] at h1
          rcases Multiset.mem_add.mp h1 with h2 | h2
          · exact Multiset.mem_coe.mp h2
          · exact absurd (congrArg Prod.fst (Multiset.mem_singleton.mp h2)) hne
      · intro _
        exact mem_contents_iff.mpr ⟨j, dstar, bkt_setBkt_self hjlen _⟩
      · intro hc
        exact absurd hmem hc
      · intro k2
        rw [hkeysrep]
        constructor
        · exact fun h => Or.inl h
        · rintro (h | rfl)
          · exact h
          · exact hmem
  · obtain ⟨Tf, j, hfeq, hfW, hfcap, hfid, hfsize, hfcont⟩ :=
      cc4_map_insert_raw_spec_absent h2W hc0 hsz2 hmem e replace
    have hkeysf := keysM_cons_of_contents hfcont
    refine ⟨Tf, j, hfeq, hfW, hfcap, fun hc => absurd hc hmem, fun _ => hfsize,
      ?_, ?_, ?_, ?_⟩
    · intro k2 e2 hne
      constructor
      · intro hmemf
        have h1 : (k2, e2) ∈ contentsM T2 + {(k, e)} := by
          rw [← hfcont]
          exact Multiset.mem_coe.mpr hmemf
        rcases Multiset.mem_add.mp h1 with h2 | h2
        · exact Multiset.mem_coe.mp h2
        · exact absurd (congrArg Prod.fst (Multiset.mem_singleton.mp h2)) hne
      · intro hmemf
        have h1 : (k2, e2) ∈ contentsM Tf := by
          rw [hfcont]
          exact Multiset.mem_add.mpr (Or.inl (Multiset.mem_coe.mpr hmemf))
        exact Multiset.mem_coe.mp h1
    · intro _
      have h1 : (k, e) ∈ contentsM Tf := by
        rw [hfcont]
        exact Multiset.mem_add.mpr (Or.inr (Multiset.mem_singleton.mpr rfl))
      exact Multiset.mem_coe.mp h1
    · intro _
      have h1 : (k, e) ∈ contentsM Tf := by
        rw [hfcont]
        exact Multiset.mem_add.mpr (Or.inr (Multiset.mem_singleton.mpr rfl))
      exact Multiset.mem_coe.mp h1
    · intro k2
      rw [hkeysf, Multiset.mem_cons]
      tauto

/-- Full specification of a successful `cc4_map_insert` on a well-formed
table: the result is well-formed, respects the load factor, grows to exactly
the minimum admissible capacity when (and only when) the guard fired, and
updates the contents as a finite map. -/
theorem cc4_map_insert_spec {hash : κ → ℕ} {T : Table κ ε} (hW : WF hash T)
    {ml : ℚ} (hml0 : 0 < ml) (hml1 : ml ≤ 1)
    (k : κ) (e : ε) (replace : Bool) (freshId : ℕ) :
    ∃ Tf r, cc4_map_insert hash T e k replace ml true freshId = some (Tf, some r) ∧
      WF hash Tf ∧
      ((T.cap : ℚ) * ml < (T.size : ℚ) + 1 →
        Tf.cap = cc4_map_min_cap_for_n_els (T.size + 1) ml) ∧
      (¬ (T.cap : ℚ) * ml < (T.size : ℚ) + 1 → Tf.cap = T.cap) ∧
      (Tf.size : ℚ) ≤ (Tf.cap : ℚ) * ml ∧
      (k ∈ keysM T → Tf.size = T.size) ∧
      (k ∉ keysM T → Tf.size = T.size + 1) ∧
      (∀ k2 e2, k2 ≠ k → ((k2, e2) ∈ contents Tf ↔ (k2, e2) ∈ contents T)) ∧
      (replace = true → (k, e) ∈ contents Tf) ∧
      (k ∉ keysM T → (k, e) ∈ contents Tf) ∧
      (∀ k2, k2 ∈ keysM Tf ↔ k2 ∈ keysM T ∨ k2 = k) := by
  by_cases hguard : (T.cap : ℚ) * ml < (T.size : ℚ) + 1
  · -- growth path
    have hgt := guard_needs_growth hml0 hguard
    obtain ⟨T2, h2eq, h2W, h2cap, h2id, h2size, h2cont⟩ :=
      cc4_map_reserve_grow hW hml0 hgt freshId
    obtain ⟨⟨m, hmeq⟩, h8, hbound, _⟩ := min_cap_spec hml0 (n := T.size + 1) (by omega)
    have hc0 : T2.cap ≠ 0 := by omega
    have hbound2 : (T.size : ℚ) + 1 ≤ (T2.cap : ℚ) * ml := by
      rw [h2cap]
      have h3 : ((T.size + 1 : ℕ) : ℚ) = (T.size : ℚ) + 1 := by push_cast; ring
      rw [← h3]
      exact hbound
    have hfitq : (T.size : ℚ) + 1 ≤ (T2.cap : ℚ) := by
      have h3 : (T2.cap : ℚ) * ml ≤ (T2.cap : ℚ) * 1 :=
        mul_le_mul_of_nonneg_left hml1 (by positivity)
      rw [mul_one] at h3
      linarith
    have hfit : T.size + 1 ≤ T2.cap := by exact_mod_cast hfitq
    have hsz2 : Multiset.card (contentsM T2) < T2.cap := by
      rw [← h2W.hsize, h2size]
      omega
    have hkeys2 : keysM T2 = keysM T := keysM_congr h2cont
    obtain ⟨Tf, r, hfeq, hfW, hfcap, hfszP, hfszA, hfmem, hfrep, hfabs, hfkeys⟩ :=
      insert_core_spec h2W hc0 hsz2 k e replace
    refine ⟨Tf, r, ?_, hfW, fun _ => hfcap.trans h2cap, fun hc => absurd hguard hc,
      ?_, ?_, ?_, ?_, hfrep, ?_, ?_⟩
    · rw [cc4_map_insert, if_pos hguard, h2eq]
      show Option.map (fun r => (r.1, some r.2)) (cc4_map_insert_raw hash T2 e k replace)
        = some (Tf, some r)
      rw [hfeq]
      rfl
    · -- load factor after the insert
      have hsle : Tf.size ≤ T.size + 1 := by
        by_cases hm2 : k ∈ keysM T2
        · rw [hfszP hm2, h2size]
          omega
        · rw [hfszA hm2, h2size]
      have h4 : (Tf.size : ℚ) ≤ (T.size : ℚ) + 1 := by exact_mod_cast hsle
      rw [hfcap]
      linarith
    · intro hm
      rw [hfszP (by rw [hkeys2]; exact hm), h2size]
    · intro hm
      rw [hfszA (by rw [hkeys2]; exact hm), h2size]
    · intro k2 e2 hne
      rw [hfmem k2 e2 hne]
      exact mem_contents_congr h2cont (k2, e2)
    · intro hm
      exact hfabs (by rw [hkeys2]; exact hm)
    · intro k2
      rw [hfkeys k2, hkeys2]
  · -- no growth needed: size + 1 ≤ cap * ml already
    push_neg at hguard
    have hc0 : T.cap ≠ 0 := by
      intro hc
      rw [hc] at hguard
      push_cast at hguard
      nlinarith
    have hfitq : (T.size : ℚ) + 1 ≤ (T.cap : ℚ) := by
      have h3 : (T.cap : ℚ) * ml ≤ (T.cap : ℚ) * 1 :=
        mul_le_mul_of_nonneg_left hml1 (by positivity)
      rw [mul_one] at h3
      linarith
    have hfit : T.size + 1 ≤ T.cap := by exact_mod_cast hfitq
    have hsz : Multiset.card (contentsM T) < T.cap := by
      rw [← hW.hsize]
      omega
    obtain ⟨Tf, r, hfeq, hfW, hfcap, hfszP, hfszA, hfmem, hfrep, hfabs, hfkeys⟩ :=
      insert_core_spec hW hc0 hsz k e replace
    refine ⟨Tf, r, ?_, hfW, fun hc => absurd hc (not_lt.mpr hguard), fun _ => hfcap,
      ?_, hfszP, hfszA, hfmem, hfrep, hfabs, hfkeys⟩
    · rw [cc4_map_insert, if_neg (not_lt.mpr hguard), hfeq]
      rfl
    · have hsle : Tf.size ≤ T.size + 1 := by
        by_cases hm2 : k ∈ keysM T
        · rw [hfszP hm2]
          omega
        · rw [hfszA hm2]
      have h4 : (Tf.size : ℚ) ≤ (T.size : ℚ) + 1 := by exact_mod_cast hsle
      rw [hfcap]
      linarith

end Insert

/-! ### Backward-shift deletion -/

section Erase

variable {κ ε : Type} [DecidableEq κ]

/-- Total stored probe length; it strictly decreases along the backward-shift
loop, bounding its iteration count. -/
def sumPlen (T : Table κ ε) : ℕ := (T.buckets.map plenOf).sum

theorem sum_set_nat (l : List ℕ) {i : ℕ} (h : i < l.length) (a : ℕ) :
    (l.set i a).sum + l[i] = l.sum + a := by
  have h1 : l = l.take i ++ l[i] :: l.drop (i + 1) := by
    conv_lhs => rw [← List.take_append_drop i l]
    rw [List.drop_eq_getElem_cons h]
  rw [List.set_eq_take_append_cons_drop, if_pos h]
  conv_rhs => rw [h1]
  rw [List.sum_append, List.sum_append, List.sum_cons, List.sum_cons]
  ring

theorem sumPlen_setBkt {T : Table κ ε} {i : ℕ} (h : i < T.buckets.length)
    (b : Bucket κ ε) :
    sumPlen (setBkt T i b) + plenAt T i = sumPlen T + plenOf b := by
  show ((T.buckets.set i b).map plenOf).sum + plenAt T i = _
  rw [List.map_set]
  have h2 : i < (T.buckets.map plenOf).length := by simpa using h
  have h3 := sum_set_nat (T.buckets.map plenOf) h2 (plenOf b)
  rw [List.getElem_map] at h3
  rw [← bkt_eq_getElem T i h] at h3
  exact h3

theorem sumPlen_le {hash : κ → ℕ} {T : Table κ ε} (hW : WF hash T) :
    sumPlen T ≤ T.cap * T.cap := by
  have h1 : ∀ x ∈ T.buckets.map plenOf, x ≤ T.cap := by
    intro x hx
    obtain ⟨b, hb, rfl⟩ := List.mem_map.mp hx
    obtain ⟨j, hj, hjb⟩ := List.mem_iff_getElem.mp hb
    have : plenAt T j = plenOf b := by rw [plenAt, bkt_eq_getElem T j hj, hjb]
    rw [← this]
    exact wf_plen_le hW j
  calc sumPlen T ≤ (T.buckets.map plenOf).length * T.cap := by
        exact List.sum_le_card_nsmul _ _ h1
    _ = T.cap * T.cap := by rw [List.length_map, hW.hlen]

theorem erase_itr_loop_stop {fuel : ℕ} {T : Table κ ε} {i : ℕ}
    (h : plenAt T (cc4_mask T.cap (i + 1)) ≤ 1) :
    cc4_map_erase_itr_loop (fuel + 1) T i = some T := by
  rw [cc4_map_erase_itr_loop, if_pos h]

theorem erase_itr_loop_shift {fuel : ℕ} {T : Table κ ε} {i : ℕ} {k2 : κ} {e2 : ε}
    {d2 : ℕ} (h : ¬ plenAt T (cc4_mask T.cap (i + 1)) ≤ 1)
    (hb : bkt T (cc4_mask T.cap (i + 1)) = some (k2, e2, d2)) :
    cc4_map_erase_itr_loop (fuel + 1) T i =
      cc4_map_erase_itr_loop fuel
        (setBkt (setBkt T i (some (k2, e2, d2 - 1))) (cc4_mask T.cap (i + 1)) none)
        (cc4_mask T.cap (i + 1)) := by
  rw [cc4_map_erase_itr_loop, if_neg h, hb]

/-- The backward-shift loop: starting from a hole at `i` in an otherwise
consistent table, it terminates within the total stored probe length and
restores the full adjacency invariant, moving entries without changing the
contents. -/
theorem erase_itr_loop_spec (hash : κ → ℕ) {n m : ℕ} (hm : n = 2 ^ m) (hn8 : 8 ≤ n) :
    ∀ fuel (T : Table κ ε) i,
      T.cap = n → T.buckets.length = n → i < n →
      bkt T i = none →
      T.size = Multiset.card (contentsM T) →
      HomeOK hash n T →
      (∀ j < n, j ≠ i → plenAt T ((j + 1) % n) ≤ plenAt T j + 1) →
      plenAt T ((i + 1) % n) ≤ plenAt T ((i + (n - 1)) % n) + 2 →
      sumPlen T < fuel →
      ∃ Tf, cc4_map_erase_itr_loop fuel T i = some Tf ∧
        Tf.cap = n ∧ Tf.allocId = T.allocId ∧ Tf.size = T.size ∧
        Tf.buckets.length = n ∧ contentsM Tf = contentsM T ∧
        HomeOK hash n Tf ∧ OrderOK n Tf := by
  have hn : 0 < n := by omega
  have hn1 : 1 < n := by omega
  intro fuel
  induction fuel with
  | zero =>
    intro T i _ _ _ _ _ _ _ _ hfuel
    omega
  | succ fuel ih =>
    intro T i hcap hlen hi hhole hsz hH hord hB5 hfuel
    have hmask : ∀ x, cc4_mask T.cap x = x % n := fun x => by
      rw [hcap]; exact cc4_mask_eq_mod m hm x
    obtain ⟨nx, hnx⟩ : ∃ nx, nx = (i + 1) % n := ⟨_, rfl⟩
    rw [← hnx] at hB5
    have hnxn : nx < n := by rw [hnx]; exact Nat.mod_lt _ hn
    have hnxi : nx ≠ i := by
      rw [hnx]
      exact slot_ne_of_shift hi Nat.one_pos hn1
    have hnxlen : nx < T.buckets.length := by omega
    have hilen : i < T.buckets.length := by omega
    by_cases hstop : plenAt T nx ≤ 1
    · refine ⟨T, ?_, hcap, rfl, rfl, hlen, rfl, hH, ?_⟩
      · have hstop2 : plenAt T (cc4_mask T.cap (i + 1)) ≤ 1 := by
          rw [hmask (i + 1), ← hnx]
          exact hstop
        exact erase_itr_loop_stop hstop2
      · intro j hj
        by_cases hji : j = i
        · subst hji
          have h0 : plenAt T j = 0 := by rw [plenAt, hhole]; rfl
          rw [← hnx]
          omega
        · exact hord j hj hji
    · push_neg at hstop
      obtain ⟨k2, e2, d2, hb2, hplen2⟩ :=
        bkt_isSome_of_plen_pos (T := T) (i := nx) (by omega)
      have hd2 : 1 ≤ d2 := by omega
      obtain ⟨hd2n, hnxeq⟩ := hH nx k2 e2 d2 hb2
      -- the shifted table
      obtain ⟨T1, hT1⟩ : ∃ T1, T1 = setBkt T i (some (k2, e2, d2 - 1)) := ⟨_, rfl⟩
      obtain ⟨T2, hT2⟩ : ∃ T2, T2 = setBkt T1 nx none := ⟨_, rfl⟩
      have hT1len : T1.buckets.length = n := by rw [hT1]; simpa using hlen
      have hnxlen1 : nx < T1.buckets.length := by omega
      have hieqd : i = (hash k2 + (d2 - 1)) % n := by
        have h1 : i = (nx + (n - 1)) % n := by
          rw [hnx]
          exact (succ_pred_mod hn hi).symm
        rw [h1, hnxeq]
        have h2 : ((hash k2 + d2) % n + (n - 1)) % n = (hash k2 + d2 + (n - 1)) % n :=
          (Nat.mod_modEq (hash k2 + d2) n).add_right _
        rw [h2]
        have h3 : hash k2 + d2 + (n - 1) = hash k2 + (d2 - 1) + n := by omega
        rw [h3, Nat.add_mod_right]
      -- contents bookkeeping
      have hcont1 : contentsM T1 = contentsM T + {(k2, e2)} := by
        have h1 := contentsM_setBkt T hilen (some (k2, e2, d2 - 1))
        rw [hhole, entryM_none, add_zero, entryM_some] at h1
        rw [hT1]
        exact h1
      have hbT1nx : bkt T1 nx = some (k2, e2, d2) := by
        rw [hT1, bkt_setBkt_ne T (fun h => hnxi h.symm)]
        exact hb2
      have hcont2 : contentsM T2 = contentsM T := by
        have h1 := contentsM_setBkt T1 hnxlen1 (none : Bucket κ ε)
        rw [hbT1nx, entryM_none, add_zero, entryM_some, hcont1] at h1
        rw [hT2]
        exact add_right_cancel h1
      -- probe lengths of the shifted table
      have hplen2eq : ∀ j, j ≠ i → j ≠ nx → plenAt T2 j = plenAt T j := by
        intro j hji hjnx
        rw [hT2, plenAt_setBkt_ne _ (fun h => hjnx h.symm), hT1,
          plenAt_setBkt_ne T (fun h => hji h.symm)]
      have hplen2i : plenAt T2 i = d2 := by
        rw [hT2, plenAt_setBkt_ne _ (fun h => hnxi h), hT1, plenAt_setBkt_self hilen,
          plenOf_some]
        omega
      have hplen2nx : plenAt T2 nx = 0 := by
        rw [hT2, plenAt_setBkt_self (by omega)]
        rfl
      -- apply the induction hypothesis to the shifted table
      have hB5n : plenAt T2 ((nx + 1) % n) ≤ plenAt T2 ((nx + (n - 1)) % n) + 2 := by
        have hpp : (nx + (n - 1)) % n = i := by
          rw [hnx]
          exact succ_pred_mod hn hi
        rw [hpp, hplen2i]
        have hsucc2 : (nx + 1) % n ≠ nx := slot_ne_of_shift hnxn Nat.one_pos hn1
        have hsucc2i : (nx + 1) % n ≠ i := by
          intro hcon
          rw [hnx, mod_step] at hcon
          have h3 : (i + 1 + 1) % n = (i + 0) % n := by
            rw [hcon, Nat.add_zero, Nat.mod_eq_of_lt hi]
          have h4 : i + 1 + 1 = i + 2 := by omega
          rw [h4] at h3
          have := add_mod_inj (a := 2) (b := 0) (by omega) (by omega) h3
          omega
        rw [hplen2eq _ hsucc2i hsucc2]
        have h5 := hord nx hnxn hnxi
        omega
      have hordn : ∀ j < n, j ≠ nx → plenAt T2 ((j + 1) % n) ≤ plenAt T2 j + 1 := by
        intro j hj hjnx
        by_cases hji : j = i
        · subst hji
          rw [← hnx, hplen2nx]
          omega
        · by_cases hsucci : (j + 1) % n = i
          · have hjpred : j = (i + (n - 1)) % n := eq_pred_of_succ_mod hn hi hj hsucci
            rw [hsucci, hplen2i, hplen2eq j hji hjnx, hjpred]
            have hplenpred : d2 + 1 ≤ plenAt T ((i + (n - 1)) % n) + 2 := by
              omega
            omega
          · by_cases hsuccnx : (j + 1) % n = nx
            · have hjpred : j = (nx + (n - 1)) % n :=
                eq_pred_of_succ_mod hn hnxn hj hsuccnx
              rw [hnx, succ_pred_mod hn hi] at hjpred
              exact absurd hjpred hji
            · rw [hplen2eq _ hsucci hsuccnx, hplen2eq j hji hjnx]
              exact hord j hj hji
      have hHn : HomeOK hash n T2 := by
        intro j k3 e3 d3 hb3
        by_cases hjnx : j = nx
        · subst hjnx
          rw [hT2, bkt_setBkt_self (by omega)] at hb3
          exact Option.noConfusion hb3
        · rw [hT2, bkt_setBkt_ne _ (fun h => hjnx h.symm)] at hb3
          by_cases hji : j = i
          · subst hji
            rw [hT1, bkt_setBkt_self hilen] at hb3
            obtain ⟨hk, he, hd⟩ := triple_inj (Option.some.inj hb3)
            refine ⟨by omega, ?_⟩
            rw [← hk, ← hd]
            exact hieqd
          · rw [hT1, bkt_setBkt_ne T (fun h => hji h.symm)] at hb3
            exact hH j k3 e3 d3 hb3
      have hsum : sumPlen T2 < fuel := by
        have h1 := sumPlen_setBkt hilen (some (k2, e2, d2 - 1))
        have h2 := sumPlen_setBkt (T := T1) hnxlen1 (none : Bucket κ ε)
        rw [← hT1] at h1
        rw [← hT2] at h2
        have h3 : plenAt T i = 0 := by rw [plenAt, hhole]; rfl
        have h4 : plenAt T1 nx = d2 + 1 := by
          rw [plenAt, hbT1nx, plenOf_some]
        have h5 : plenOf (some (k2, e2, d2 - 1) : Bucket κ ε) = d2 := by
          rw [plenOf_some]
          omega
        have h6 : plenOf (none : Bucket κ ε) = 0 := rfl
        rw [h3, h5] at h1
        rw [h4, h6] at h2
        omega
      obtain ⟨Tf, hfeq, hfcap, hfid, hfsize, hflen, hfcont, hfH, hfO⟩ :=
        ih T2 nx (by rw [hT2, hT1]; simpa using hcap) (by rw [hT2]; simpa using hT1len)
          hnxn (by rw [hT2]; exact bkt_setBkt_self (by omega) _)
          (by
            have hs2 : T2.size = T.size := by rw [hT2, hT1]; rfl
            rw [hs2, hcont2]
            exact hsz)
          hHn hordn hB5n hsum
      have hfid2 : Tf.allocId = T.allocId := by
        rw [hfid, hT2, hT1]
        rfl
      have hfsize2 : Tf.size = T.size := by
        rw [hfsize, hT2, hT1]
        rfl
      refine ⟨Tf, ?_, hfcap, hfid2, hfsize2, hflen, by rw [hfcont, hcont2], hfH, hfO⟩
      have hb2m : bkt T (cc4_mask T.cap (i + 1)) = some (k2, e2, d2) := by
        rw [hmask (i + 1), ← hnx]
        exact hb2
      have hstop2 : ¬ plenAt T (cc4_mask T.cap (i + 1)) ≤ 1 := by
        rw [hmask (i + 1), ← hnx]
        omega
      rw [erase_itr_loop_shift hstop2 hb2m, hmask (i + 1), ← hnx, ← hT1, ← hT2]
      exact hfeq

/-- Erasing the entry at an occupied bucket of a well-formed table: size drops
by one, exactly that pair leaves the contents, well-formedness is restored. -/
theorem cc4_map_erase_itr_spec {hash : κ → ℕ} {T : Table κ ε} (hW : WF hash T)
    {i0 : ℕ} {k0 : κ} {e0 : ε} {d0 : ℕ} (hb : bkt T i0 = some (k0, e0, d0)) :
    ∃ Tf, cc4_map_erase_itr T i0 = some Tf ∧ WF hash Tf ∧
      Tf.cap = T.cap ∧ Tf.allocId = T.allocId ∧ Tf.size + 1 = T.size ∧
      contentsM Tf + {(k0, e0)} = contentsM T := by
  have hc0 : T.cap ≠ 0 := by
    have := wf_cap_pos hW hb
    omega
  obtain ⟨m, hm, hn8⟩ := hW.hpow.resolve_left hc0
  have hn : 0 < T.cap := by omega
  have hn1 : 1 < T.cap := by omega
  have hi0 : i0 < T.cap := by
    have h1 := lt_len_of_bkt_some hb
    rw [hW.hlen] at h1
    exact h1
  have hilen : i0 < T.buckets.length := lt_len_of_bkt_some hb
  obtain ⟨T1, hT1⟩ : ∃ T1 : Table κ ε,
      T1 = setBkt { T with size := T.size - 1 } i0 none := ⟨_, rfl⟩
  have hszpos : 1 ≤ T.size := by
    rw [hW.hsize, card_contentsM]
    have hmem : (k0, e0) ∈ contents T := mem_contents_iff.mpr ⟨i0, d0, hb⟩
    have := List.length_pos_of_mem hmem
    omega
  have hcont1 : contentsM T1 + {(k0, e0)} = contentsM T := by
    have h1 := contentsM_setBkt (T := { T with size := T.size - 1 }) (i := i0)
      (by simpa using hilen) (none : Bucket κ ε)
    have h2 : bkt ({ T with size := T.size - 1 } : Table κ ε) i0 = some (k0, e0, d0) := hb
    rw [h2, entryM_none, entryM_some] at h1
    rw [hT1]
    have h3 : contentsM ({ T with size := T.size - 1 } : Table κ ε) = contentsM T := rfl
    rw [h3] at h1
    exact h1.trans (add_zero _)
  have hplen1 : ∀ j, j ≠ i0 → plenAt T1 j = plenAt T j := by
    intro j hj
    rw [hT1, plenAt_setBkt_ne _ (fun h => hj h.symm)]
    rfl
  have hhole1 : bkt T1 i0 = none := by
    rw [hT1]
    exact bkt_setBkt_self (by simpa using hilen) _
  obtain ⟨Tf, hfeq, hfcap, hfid, hfsize, hflen, hfcont, hfH, hfO⟩ :=
    erase_itr_loop_spec hash hm hn8 (T.cap * T.cap + 1) T1 i0
      (by rw [hT1]; rfl) (by rw [hT1]; simpa using hW.hlen) hi0 hhole1
      (by
        have h1 : T1.size = T.size - 1 := by rw [hT1]; rfl
        have h2 := congrArg Multiset.card hcont1
        rw [Multiset.card_add, Multiset.card_singleton] at h2
        have h0 := hW.hsize
        rw [h1]
        omega)
      (by
        intro j k3 e3 d3 hb3
        by_cases hji : j = i0
        · subst hji
          rw [hhole1] at hb3
          exact Option.noConfusion hb3
        · rw [hT1, bkt_setBkt_ne _ (fun h => hji h.symm)] at hb3
          exact hW.hhome j k3 e3 d3 hb3)
      (by
        intro j hj hji
        by_cases hsucc : (j + 1) % T.cap = i0
        · rw [hsucc]
          have h0 : plenAt T1 i0 = 0 := by rw [plenAt, hhole1]; rfl
          rw [h0]
          omega
        · rw [hplen1 _ hsucc, hplen1 j hji]
          exact hW.horder j hj)
      (by
        have hsne : (i0 + 1) % T.cap ≠ i0 := slot_ne_of_shift hi0 Nat.one_pos hn1
        have hpne : (i0 + (T.cap - 1)) % T.cap ≠ i0 := by
          intro hcon
          have h2 : (i0 + (T.cap - 1)) % T.cap = (i0 + 0) % T.cap := by
            rw [hcon, Nat.add_zero, Nat.mod_eq_of_lt hi0]
          have := add_mod_inj (a := T.cap - 1) (b := 0) (by omega) (by omega) h2
          omega
        rw [hplen1 _ hsne, hplen1 _ hpne]
        have h1 := hW.horder i0 hi0
        have h2 := hW.horder ((i0 + (T.cap - 1)) % T.cap) (Nat.mod_lt _ hn)
        rw [pred_succ_mod hn hi0] at h2
        have h3 : plenAt T i0 = d0 + 1 := by rw [plenAt, hb, plenOf_some]
        omega)
      (by
        have h1 : sumPlen T1 ≤ sumPlen T := by
          have h2 := sumPlen_setBkt (T := { T with size := T.size - 1 }) (i := i0)
            (by simpa using hilen) (none : Bucket κ ε)
          rw [← hT1] at h2
          have h3 : sumPlen ({ T with size := T.size - 1 } : Table κ ε) = sumPlen T := rfl
          rw [h3] at h2
          have h4 : plenOf (none : Bucket κ ε) = 0 := rfl
          rw [h4] at h2
          omega
        have := sumPlen_le hW
        omega)
  have hf1 : Tf.size + 1 = T.size := by
    rw [hfsize, hT1]
    show T.size - 1 + 1 = T.size
    omega
  have hfc : contentsM Tf + {(k0, e0)} = contentsM T := by
    rw [hfcont]
    exact hcont1
  refine ⟨Tf, ?_, ?_, hfcap, by rw [hfid, hT1]; rfl, hf1, hfc⟩
  · rw [cc4_map_erase_itr, ← hT1]
    exact hfeq
  · have hkeysT : keysM T = k0 ::ₘ keysM Tf := by
      have := congrArg (Multiset.map Prod.fst) hfc
      rw [Multiset.map_add] at this
      simp only [Multiset.map_singleton] at this
      rw [keysM, keysM, ← this, add_comm, ← Multiset.singleton_add]
    refine ⟨hflen.trans hfcap.symm, ?_, ?_, ?_, ?_, ?_⟩
    · rw [hfcap]
      exact hW.hpow
    · have h2 := congrArg Multiset.card hfc
      rw [Multiset.card_add, Multiset.card_singleton] at h2
      rw [← hW.hsize] at h2
      omega
    · show HomeOK hash Tf.cap Tf
      rw [hfcap]
      exact hfH
    · show OrderOK Tf.cap Tf
      rw [hfcap]
      exact hfO
    · have := hW.hkeys
      rw [hkeysT, Multiset.nodup_cons] at this
      exact this.2

/-- The search loop of `cc4_map_erase` follows the lookup loop exactly,
erasing on a hit. -/
theorem erase_loop_eq_get_loop {T : Table κ ε} {key : κ} :
    ∀ fuel i t, cc4_map_erase_loop T key fuel i t =
      match cc4_map_get_loop T key fuel i t with
      | none => none
      | some none => some (T, false)
      | some (some j) => (cc4_map_erase_itr T j).map fun T2 => (T2, true) := by
  intro fuel
  induction fuel with
  | zero => intro i t; rfl
  | succ fuel ih =>
    intro i t
    rw [cc4_map_erase_loop, cc4_map_get_loop]
    by_cases hguard : t ≤ plenAt T i
    · rw [if_pos hguard, if_pos hguard]
      by_cases hcond : t = plenAt T i ∧ keyAt T i = some key
      · rw [if_pos hcond, if_pos hcond]
      · rw [if_neg hcond, if_neg hcond, ih]
    · rw [if_neg hguard, if_neg hguard]

/-- Erasing a stored key from a well-formed table: reports `true`, drops
exactly that entry, decrements the size. -/
theorem cc4_map_erase_spec_present {hash : κ → ℕ} {T : Table κ ε} (hW : WF hash T)
    {j : ℕ} {k : κ} {e : ε} {d : ℕ} (hb : bkt T j = some (k, e, d)) :
    ∃ Tf, cc4_map_erase hash T k = some (Tf, true) ∧ WF hash Tf ∧
      Tf.cap = T.cap ∧ Tf.allocId = T.allocId ∧ Tf.size + 1 = T.size ∧
      contentsM Tf + {(k, e)} = contentsM T := by
  have hget := cc4_map_get_found hW hb
  obtain ⟨Tf, hfeq, hfW, hfcap, hfid, hfsize, hfcont⟩ := cc4_map_erase_itr_spec hW hb
  have hsz : cc4_map_size T ≠ 0 := by
    rw [cc4_map_size, hW.hsize, card_contentsM]
    have hmem : (k, e) ∈ contents T := mem_contents_iff.mpr ⟨j, d, hb⟩
    have := List.length_pos_of_mem hmem
    omega
  refine ⟨Tf, ?_, hfW, hfcap, hfid, hfsize, hfcont⟩
  rw [cc4_map_erase, if_neg hsz, erase_loop_eq_get_loop]
  rw [cc4_map_get, if_neg hsz] at hget
  rw [hget]
  show Option.map (fun T2 => (T2, true)) (cc4_map_erase_itr T j) = some (Tf, true)
  rw [hfeq]
  rfl

/-- Erasing an absent key from a well-formed table: reports `false` and
leaves the table untouched. -/
theorem cc4_map_erase_spec_absent {hash : κ → ℕ} {T : Table κ ε} (hW : WF hash T)
    {k : κ} (habs : k ∉ keysM T) :
    cc4_map_erase hash T k = some (T, false) := by
  have hget := cc4_map_get_absent hW habs
  rw [cc4_map_erase]
  by_cases hsz : cc4_map_size T = 0
  · rw [if_pos hsz]
  · rw [if_neg hsz, erase_loop_eq_get_loop]
    rw [cc4_map_get, if_neg hsz] at hget
    rw [hget]

end Erase

/-! ### Remaining operations: clear, shrink, clone, and reachability -/

section Reach

variable {κ ε : Type} [DecidableEq κ]

theorem wf_placeholder (hash : κ → ℕ) : WF hash (cc4_map_placeholder κ ε) := by
  refine ⟨rfl, Or.inl rfl, rfl, ?_, ?_, ?_⟩
  · intro i k e d hb
    exact Option.noConfusion hb
  · intro i hi
    exact absurd hi (Nat.not_lt_zero i)
  · exact Multiset.nodup_zero

theorem contents_eq_nil_of_all_none {T : Table κ ε} (h : ∀ j, bkt T j = none) :
    contents T = [] := by
  rw [contents, List.filterMap_eq_nil]
  intro b hb
  obtain ⟨j, hj, hjb⟩ := List.mem_iff_getElem.mp hb
  have : bkt T j = b := by rw [bkt_eq_getElem T j hj, hjb]
  rw [h j] at this
  rw [← this]
  rfl

theorem all_none_of_size_zero {hash : κ → ℕ} {T : Table κ ε} (hW : WF hash T)
    (h : T.size = 0) : ∀ j, bkt T j = none := by
  intro j
  rcases hb : bkt T j with _ | ⟨k, e, d⟩
  · rfl
  · have hmem : (k, e) ∈ contents T := mem_contents_iff.mpr ⟨j, d, hb⟩
    rw [hW.hsize, card_contentsM] at h
    rw [List.length_eq_zero.mp h] at hmem
    cases hmem

theorem clearStep_of_none {eD kD : Option ℕ} {acc : Table κ ε × List (DtorEvent κ ε)}
    {i : ℕ} (h : bkt acc.1 i = none) : clearStep eD kD acc i = acc := by
  rw [clearStep, h]

theorem clearStep_of_some {eD kD : Option ℕ} {acc : Table κ ε × List (DtorEvent κ ε)}
    {i : ℕ} {k : κ} {e : ε} {d : ℕ} (h : bkt acc.1 i = some (k, e, d)) :
    clearStep eD kD acc i = (setBkt acc.1 i none, acc.2 ++ dtorEvents kD eD k e) := by
  rw [clearStep, h]

/-- The zeroing fold of `cc4_map_clear` empties every bucket it visits and
touches nothing else (header fields aside from the trace untouched). -/
theorem clear_fold_spec (eD kD : Option ℕ) :
    ∀ (L : List ℕ) (acc : Table κ ε × List (DtorEvent κ ε)),
      (L.foldl (clearStep eD kD) acc).1.cap = acc.1.cap ∧
      (L.foldl (clearStep eD kD) acc).1.allocId = acc.1.allocId ∧
      (L.foldl (clearStep eD kD) acc).1.size = acc.1.size ∧
      (L.foldl (clearStep eD kD) acc).1.buckets.length = acc.1.buckets.length ∧
      ∀ j, bkt (L.foldl (clearStep eD kD) acc).1 j =
        if j ∈ L then none else bkt acc.1 j := by
  intro L
  induction L with
  | nil =>
    intro acc
    refine ⟨rfl, rfl, rfl, rfl, ?_⟩
    intro j
    rw [if_neg (List.not_mem_nil j)]
    rfl
  | cons a L ih =>
    intro acc
    rw [List.foldl_cons]
    rcases hba : bkt acc.1 a with _ | ⟨k2, e2, d2⟩
    · rw [clearStep_of_none hba]
      obtain ⟨h1, h2, h3, h4, h5⟩ := ih acc
      refine ⟨h1, h2, h3, h4, ?_⟩
      intro j
      rw [h5 j]
      by_cases hjL : j ∈ L
      · rw [if_pos hjL, if_pos (List.mem_cons_of_mem a hjL)]
      · rw [if_neg hjL]
        by_cases hja : j = a
        · subst hja
          rw [if_pos (List.mem_cons_self _ _), hba]
        · rw [if_neg (by rw [List.mem_cons]; tauto)]
    · have halen : a < acc.1.buckets.length := lt_len_of_bkt_some hba
      rw [clearStep_of_some hba]
      obtain ⟨h1, h2, h3, h4, h5⟩ :=
        ih (setBkt acc.1 a none, acc.2 ++ dtorEvents kD eD k2 e2)
      refine ⟨h1.trans rfl, h2.trans rfl, h3.trans rfl, h4.trans (by simp), ?_⟩
      intro j
      rw [h5 j]
      by_cases hjL : j ∈ L
      · rw [if_pos hjL, if_pos (List.mem_cons_of_mem a hjL)]
      · rw [if_neg hjL]
        by_cases hja : j = a
        · subst hja
          rw [if_pos (List.mem_cons_self _ _)]
          exact bkt_setBkt_self halen _
        · rw [if_neg (by rw [List.mem_cons]; tauto)]
          exact bkt_setBkt_ne _ (fun h => hja h.symm) _

/-- `cc4_map_clear` keeps the capacity and allocation, zeroes the size, and
leaves every bucket empty; it preserves well-formedness. -/
theorem cc4_map_clear_spec {hash : κ → ℕ} {T : Table κ ε} (hW : WF hash T)
    (eD kD : Option ℕ) :
    WF hash (cc4_map_clear T eD kD).1 ∧ (cc4_map_clear T eD kD).1.cap = T.cap ∧
      (cc4_map_clear T eD kD).1.allocId = T.allocId ∧
      (cc4_map_clear T eD kD).1.size = 0 ∧
      contentsM (cc4_map_clear T eD kD).1 = 0 := by
  by_cases hsz : cc4_map_size T = 0
  · rw [cc4_map_clear, if_pos hsz]
    have hc : contentsM T = 0 := by
      have h1 := hW.hsize
      rw [cc4_map_size] at hsz
      rw [hsz] at h1
      exact (Multiset.card_eq_zero.mp h1.symm)
    exact ⟨hW, rfl, rfl, hsz, hc⟩
  · obtain ⟨h1, h2, h3, h4, h5⟩ := clear_fold_spec eD kD (List.range T.cap) (T, [])
    have hres : cc4_map_clear T eD kD =
        ({ ((List.range T.cap).foldl (clearStep eD kD)
            (T, ([] : List (DtorEvent κ ε)))).1 with size := 0 },
          ((List.range T.cap).foldl (clearStep eD kD)
            (T, ([] : List (DtorEvent κ ε)))).2) := by
      rw [cc4_map_clear, if_neg hsz]
    have hcap : (cc4_map_clear T eD kD).1.cap = T.cap := by
      rw [hres]
      exact h1.trans rfl
    have hid : (cc4_map_clear T eD kD).1.allocId = T.allocId := by
      rw [hres]
      exact h2.trans rfl
    have hsz0 : (cc4_map_clear T eD kD).1.size = 0 := by
      rw [hres]
    have hlenR : (cc4_map_clear T eD kD).1.buckets.length = T.cap := by
      rw [hres]
      exact h4.trans hW.hlen
    have hbnone : ∀ j, bkt (cc4_map_clear T eD kD).1 j = none := by
      intro j
      rw [hres]
      show bkt (((List.range T.cap).foldl (clearStep eD kD) (T, [])).1) j = none
      rw [h5 j]
      by_cases hj : j ∈ List.range T.cap
      · rw [if_pos hj]
      · rw [if_neg hj]
        rw [List.mem_range] at hj
        exact bkt_of_len_le (by rw [hW.hlen]; omega)
    have hcnil := contents_eq_nil_of_all_none hbnone
    have hcont0 : contentsM (cc4_map_clear T eD kD).1 = 0 := by
      rw [contentsM, hcnil]
      rfl
    refine ⟨⟨?_, ?_, ?_, ?_, ?_, ?_⟩, hcap, hid, hsz0, hcont0⟩
    · rw [hlenR, hcap]
    · rw [hcap]
      exact hW.hpow
    · rw [hsz0, hcont0]
      rfl
    · intro i k e d hb
      rw [hbnone i] at hb
      exact Option.noConfusion hb
    · intro i _
      have h0 : ∀ i2, plenAt (cc4_map_clear T eD kD).1 i2 = 0 := by
        intro i2
        rw [plenAt, hbnone i2]
        rfl
      rw [h0, h0]
      omega
    · rw [keysM, hcont0]
      exact Multiset.nodup_zero

/-- Any result of `cc4_map_reserve` on a well-formed table is well-formed. -/
theorem cc4_map_reserve_wf {hash : κ → ℕ} {T : Table κ ε} (hW : WF hash T)
    {n2 : ℕ} {ml : ℚ} (hml0 : 0 < ml) {allocOk : Bool} {freshId : ℕ}
    {Tf : Table κ ε} {b : Bool}
    (heq : cc4_map_reserve hash T n2 ml allocOk freshId = some (Tf, b)) :
    WF hash Tf := by
  by_cases hle : cc4_map_min_cap_for_n_els n2 ml ≤ T.cap
  · rw [cc4_map_reserve_noop hle allocOk freshId] at heq
    have h12 := Option.some.inj heq
    injection h12 with h1A h1B
    exact h1A ▸ hW
  · rcases allocOk with _ | _
    · rw [cc4_map_reserve_fail hle freshId] at heq
      have h12 := Option.some.inj heq
      injection h12 with h1A h1B
      exact h1A ▸ hW
    · obtain ⟨Tf2, hfeq, hfW, _, _, _, _⟩ := cc4_map_reserve_grow hW hml0 hle freshId
      rw [hfeq] at heq
      have h12 := Option.some.inj heq
      injection h12 with h1A h1B
      exact h1A ▸ hfW

/-- Any result of `cc4_map_insert` on a well-formed table is well-formed. -/
theorem cc4_map_insert_wf {hash : κ → ℕ} {T : Table κ ε} (hW : WF hash T)
    {ml : ℚ} (hml0 : 0 < ml) (hml1 : ml ≤ 1) {k : κ} {e : ε} {rep ok : Bool}
    {freshId : ℕ} {Tf : Table κ ε} {r : Option ℕ}
    (heq : cc4_map_insert hash T e k rep ml ok freshId = some (Tf, r)) :
    WF hash Tf := by
  rcases ok with _ | _
  · by_cases hguard : (T.cap : ℚ) * ml < (T.size : ℚ) + 1
    · rw [cc4_map_insert_fail hml0 hguard] at heq
      have h12 := Option.some.inj heq
      injection h12 with h1A h1B
      exact h1A ▸ hW
    · push_neg at hguard
      have hc0 : T.cap ≠ 0 := by
        intro hc
        rw [hc] at hguard
        push_cast at hguard
        nlinarith
      have hfitq : (T.size : ℚ) + 1 ≤ (T.cap : ℚ) := by
        have h3 : (T.cap : ℚ) * ml ≤ (T.cap : ℚ) * 1 :=
          mul_le_mul_of_nonneg_left hml1 (by positivity)
        rw [mul_one] at h3
        linarith
      have hfit : T.size + 1 ≤ T.cap := by exact_mod_cast hfitq
      have hsz : Multiset.card (contentsM T) < T.cap := by
        rw [← hW.hsize]
        omega
      obtain ⟨Tf2, r2, hfeq, hfW, _, _, _, _, _, _, _⟩ :=
        insert_core_spec hW hc0 hsz k e rep
      rw [cc4_map_insert, if_neg (not_lt.mpr hguard), hfeq] at heq
      have h2 : Tf2 = Tf := congrArg Prod.fst (Option.some.inj heq)
      rw [← h2]
      exact hfW
  · obtain ⟨Tf2, r2, hfeq, hfW, _⟩ := cc4_map_insert_spec hW hml0 hml1 k e rep freshId
    rw [hfeq] at heq
    have h2 : Tf2 = Tf := congrArg Prod.fst (Option.some.inj heq)
    rw [← h2]
    exact hfW

/-- Any result of `cc4_map_erase` on a well-formed table is well-formed. -/
theorem cc4_map_erase_wf {hash : κ → ℕ} {T : Table κ ε} (hW : WF hash T) {k : κ}
    {Tf : Table κ ε} {b : Bool}
    (heq : cc4_map_erase hash T k = some (Tf, b)) : WF hash Tf := by
  by_cases hmem : k ∈ keysM T
  · obtain ⟨e, he⟩ := mem_keysM_iff.mp hmem
    obtain ⟨j, d, hb⟩ := mem_contents_iff.mp he
    obtain ⟨Tf2, hfeq, hfW, _⟩ := cc4_map_erase_spec_present hW hb
    rw [hfeq] at heq
    have h2 : Tf2 = Tf := congrArg Prod.fst (Option.some.inj heq)
    rw [← h2]
    exact hfW
  · rw [cc4_map_erase_spec_absent hW hmem] at heq
    have h12 := Option.some.inj heq
    injection h12 with h1A h1B
    exact h1A ▸ hW

/-- Any result of `cc4_map_shrink` on a well-formed table is well-formed. -/
theorem cc4_map_shrink_wf {hash : κ → ℕ} {T : Table κ ε} (hW : WF hash T)
    {ml : ℚ} (hml0 : 0 < ml) (hml1 : ml ≤ 1) {allocOk : Bool} {freshId : ℕ}
    {Tf : Table κ ε} {b : Bool}
    (heq : cc4_map_shrink hash T ml allocOk freshId = some (Tf, b)) :
    WF hash Tf := by
  rw [cc4_map_shrink] at heq
  by_cases h1 : cc4_map_min_cap_for_n_els (cc4_map_size T) ml = T.cap
  · rw [if_pos h1] at heq
    have h22 := Option.some.inj heq
    injection h22 with h2A h2B
    exact h2A ▸ hW
  · rw [if_neg h1] at heq
    by_cases h2 : cc4_map_min_cap_for_n_els (cc4_map_size T) ml = 0
    · rw [if_pos h2] at heq
      have h32 := Option.some.inj heq
      injection h32 with h3A h3B
      exact h3A ▸ wf_placeholder hash
    · rw [if_neg h2] at heq
      rcases allocOk with _ | _
      · rw [make_rehash_alloc_fail] at heq
        have h32 := Option.some.inj heq
        injection h32 with h3A h3B
        exact h3A ▸ hW
      · have hszpos : 1 ≤ cc4_map_size T := by
          by_contra hc
          push_neg at hc
          have : cc4_map_size T = 0 := by omega
          rw [this, min_cap_zero] at h2
          exact h2 rfl
        obtain ⟨⟨m, hmeq⟩, h8, hbound, _⟩ := min_cap_spec hml0 hszpos
        have hfitq : (cc4_map_size T : ℚ)
            ≤ (cc4_map_min_cap_for_n_els (cc4_map_size T) ml : ℚ) := by
          have h3 : (cc4_map_min_cap_for_n_els (cc4_map_size T) ml : ℚ) * ml
              ≤ (cc4_map_min_cap_for_n_els (cc4_map_size T) ml : ℚ) * 1 :=
            mul_le_mul_of_nonneg_left hml1 (by positivity)
          rw [mul_one] at h3
          linarith
        have hfit : T.size ≤ cc4_map_min_cap_for_n_els (cc4_map_size T) ml := by
          exact_mod_cast hfitq
        obtain ⟨Tf2, hfeq, hfW, _⟩ := cc4_map_make_rehash_spec hW hmeq h8 hfit freshId
        rw [hfeq] at heq
        have h32 := Option.some.inj heq
        injection h32 with h3A h3B
        exact h3A ▸ hfW

/-- Any result of `cc4_map_init_clone` of a well-formed table is
well-formed. -/
theorem cc4_map_init_clone_wf {hash : κ → ℕ} {T : Table κ ε} (hW : WF hash T)
    {allocOk : Bool} {freshId : ℕ} {Tf : Table κ ε}
    (heq : cc4_map_init_clone T allocOk freshId = some Tf) : WF hash Tf := by
  rw [cc4_map_init_clone] at heq
  by_cases h1 : cc4_map_size T = 0
  · rw [if_pos h1] at heq
    rw [← Option.some.inj heq]
    exact wf_placeholder hash
  · rw [if_neg h1] at heq
    rcases allocOk with _ | _
    · exact Option.noConfusion heq
    · rw [if_pos rfl] at heq
      rw [← Option.some.inj heq]
      exact ⟨hW.hlen, hW.hpow, hW.hsize, hW.hhome, hW.horder, hW.hkeys⟩

/-- Tables reachable from the placeholder through the public operations, with
load factor `ml`. -/
inductive Reachable (hash : κ → ℕ) (ml : ℚ) : Table κ ε → Prop
  | empty : Reachable hash ml (cc4_map_placeholder κ ε)
  | ins {T : Table κ ε} {el : ε} {key : κ} {rep ok : Bool} {fid : ℕ}
      {Tf : Table κ ε} {r : Option ℕ} : Reachable hash ml T →
      cc4_map_insert hash T el key rep ml ok fid = some (Tf, r) → Reachable hash ml Tf
  | ers {T : Table κ ε} {key : κ} {Tf : Table κ ε} {b : Bool} :
      Reachable hash ml T → cc4_map_erase hash T key = some (Tf, b) →
      Reachable hash ml Tf
  | ersItr {T : Table κ ε} {i : ℕ} {x : κ × ε × ℕ} {Tf : Table κ ε} :
      Reachable hash ml T → bkt T i = some x → cc4_map_erase_itr T i = some Tf →
      Reachable hash ml Tf
  | rsv {T : Table κ ε} {n2 : ℕ} {ok : Bool} {fid : ℕ} {Tf : Table κ ε} {b : Bool} :
      Reachable hash ml T → cc4_map_reserve hash T n2 ml ok fid = some (Tf, b) →
      Reachable hash ml Tf
  | shr {T : Table κ ε} {ok : Bool} {fid : ℕ} {Tf : Table κ ε} {b : Bool} :
      Reachable hash ml T → cc4_map_shrink hash T ml ok fid = some (Tf, b) →
      Reachable hash ml Tf
  | clr {T : Table κ ε} {eD kD : Option ℕ} : Reachable hash ml T →
      Reachable hash ml (cc4_map_clear T eD kD).1
  | cln {T : Table κ ε} {ok : Bool} {fid : ℕ} {Tf : Table κ ε} :
      Reachable hash ml T → cc4_map_init_clone T ok fid = some Tf →
      Reachable hash ml Tf

/-- Every reachable table is well-formed. -/
theorem reachable_wf {hash : κ → ℕ} {ml : ℚ} (hml0 : 0 < ml) (hml1 : ml ≤ 1)
    {T : Table κ ε} (hR : Reachable hash ml T) : WF hash T := by
  induction hR with
  | empty => exact wf_placeholder hash
  | ins _ heq ih => exact cc4_map_insert_wf ih hml0 hml1 heq
  | ers _ heq ih => exact cc4_map_erase_wf ih heq
  | ersItr _ hb heq ih =>
    obtain ⟨k, e, d⟩ := ‹κ × ε × ℕ›
    obtain ⟨Tf2, hfeq, hfW, _⟩ := cc4_map_erase_itr_spec ih hb
    rw [hfeq] at heq
    rw [← Option.some.inj heq]
    exact hfW
  | rsv _ heq ih => exact cc4_map_reserve_wf ih hml0 heq
  | shr _ heq ih => exact cc4_map_shrink_wf ih hml0 hml1 heq
  | clr _ ih => exact (cc4_map_clear_spec ih _ _).1
  | cln _ heq ih => exact cc4_map_init_clone_wf ih heq

end Reach

/-! ### The checked claims -/

section Claims

variable {κ ε : Type} [DecidableEq κ]

theorem findAppend {α : Type} (q : α → Bool) :
    ∀ l1 l2 : List α, (l1 ++ l2).find? q = (l1.find? q).or (l2.find? q) := by
  intro l1
  induction l1 with
  | nil =>
    intro l2
    rfl
  | cons a l1 ih =>
    intro l2
    by_cases ha : q a
    · rw [List.cons_append, List.find?_cons_of_pos _ ha, List.find?_cons_of_pos _ ha]
      rfl
    · rw [List.cons_append, List.find?_cons_of_neg _ (by simpa using ha),
        List.find?_cons_of_neg _ (by simpa using ha)]
      exact ih l2

/-- Two tables with distinct keys that agree on a key's memberships denote the
same value at that key. -/
theorem model_congr {T1 T2 : Table κ ε} (h1 : (keysM T1).Nodup)
    (h2 : (keysM T2).Nodup) {k : κ}
    (hmem : ∀ e, (k, e) ∈ contents T1 ↔ (k, e) ∈ contents T2)
    (hk : k ∈ keysM T1 ↔ k ∈ keysM T2) : model T1 k = model T2 k := by
  rcases hm : model T2 k with _ | e
  · rw [model_eq_none_iff] at hm ⊢
    intro e hmem1
    exact hm e ((hmem e).mp hmem1)
  · rw [model_eq_some_iff h2] at hm
    rw [model_eq_some_iff h1, hmem]
    exact hm

theorem keysM_placeholder : keysM (cc4_map_placeholder κ ε) = 0 := rfl

theorem model_placeholder (k : κ) : model (cc4_map_placeholder κ ε) k = none := rfl

/-- Folding replacing inserts over a list of pairs (from any well-formed start)
succeeds and denotes the expected finite map: the last-inserted value of each
key of the list, the starting table's value elsewhere. -/
theorem insert_seq_fold {hash : κ → ℕ} {ml : ℚ} (hml0 : 0 < ml) (hml1 : ml ≤ 1) :
    ∀ (ps : List (κ × ε)) (T0 : Table κ ε), WF hash T0 →
      ∃ T, ps.foldlM
          (fun T2 p => (cc4_map_insert hash T2 p.2 p.1 true ml true 1).map Prod.fst)
          T0 = some T ∧
        WF hash T ∧
        (∀ k, model T k =
          ((ps.reverse.find? (fun p => decide (p.1 = k))).map Prod.snd).or
            (model T0 k)) ∧
        (∀ k, k ∈ keysM T ↔ k ∈ keysM T0 ∨ k ∈ ps.map Prod.fst) := by
  intro ps
  induction ps with
  | nil =>
    intro T0 hW0
    refine ⟨T0, rfl, hW0, fun k => rfl, fun k => by simp⟩
  | cons p ps ih =>
    intro T0 hW0
    obtain ⟨Tf, r, heq, hfW, _, _, _, _, _, hfmem, hfrep, _, hfkeys⟩ :=
      cc4_map_insert_spec hW0 hml0 hml1 p.1 p.2 true 1
    obtain ⟨T, hTeq, hTW, hTmodel, hTkeys⟩ := ih Tf hfW
    have hm : ∀ k, model Tf k = if p.1 = k then some p.2 else model T0 k := by
      intro k
      by_cases hk : p.1 = k
      · rw [if_pos hk]
        subst hk
        exact (model_eq_some_iff hfW.hkeys).mpr (hfrep rfl)
      · rw [if_neg hk]
        refine model_congr hfW.hkeys hW0.hkeys ?_ ?_
        · intro e2
          exact hfmem k e2 (fun h => hk h.symm)
        · rw [hfkeys k]
          constructor
          · rintro (h | h)
            · exact h
            · exact absurd h.symm hk
          · exact Or.inl
    refine ⟨T, ?_, hTW, ?_, ?_⟩
    · rw [List.foldlM_cons, heq]
      exact hTeq
    · intro k
      have hsing : ([p] : List (κ × ε)).find? (fun q => decide (q.1 = k))
          = if p.1 = k then some p else none := by
        by_cases hk : p.1 = k
        · rw [if_pos hk]
          exact List.find?_cons_of_pos _ (by simpa using hk)
        · rw [if_neg hk]
          exact List.find?_cons_of_neg _ (by simpa using hk)
      rw [hTmodel k, hm k, List.reverse_cons, findAppend, hsing]
      rcases hf : ps.reverse.find? (fun q => decide (q.1 = k)) with _ | pr
      · rw [hf]
        by_cases hk : p.1 = k
        · rw [if_pos hk, if_pos hk]
          rfl
        · rw [if_neg hk, if_neg hk]
          rfl
      · rw [hf]
        rfl
    · intro k
      rw [hTkeys k, hfkeys k]
      simp only [List.map_cons, List.mem_cons]
      tauto

/-- C1: folding the public insert (with replace) over any sequence of
key/element pairs from the empty table succeeds; afterwards `get` returns a
pointer to a bucket holding the last-inserted element of every inserted key,
`get` of a never-inserted key reports "not found", and the size equals the
number of distinct inserted keys. -/
theorem claim_C1 (hash : κ → ℕ) {ml : ℚ} (hml0 : 0 < ml) (hml1 : ml ≤ 1)
    (ps : List (κ × ε)) :
    ∃ T, cc4_map_insert_seq hash ml ps = some T ∧
      (∀ k e, (ps.reverse.find? (fun p => decide (p.1 = k))).map Prod.snd = some e →
        ∃ j d, cc4_map_get hash T k = some (some j) ∧ bkt T j = some (k, e, d)) ∧
      (∀ k, k ∉ ps.map Prod.fst → cc4_map_get hash T k = some none) ∧
      cc4_map_size T = (ps.map Prod.fst).dedup.length := by
  obtain ⟨T, hTeq, hTW, hTmodel, hTkeys⟩ :=
    insert_seq_fold hml0 hml1 ps (cc4_map_placeholder κ ε) (wf_placeholder hash)
  have hkeys2 : ∀ k, k ∈ keysM T ↔ k ∈ ps.map Prod.fst := by
    intro k
    rw [hTkeys k, keysM_placeholder]
    simp
  refine ⟨T, ?_, ?_, ?_, ?_⟩
  · rw [cc4_map_insert_seq]
    exact hTeq
  · intro k e hfind
    have h1 : model T k = some e := by
      rw [hTmodel k, hfind]
      rfl
    obtain ⟨j, d, hb⟩ := mem_contents_iff.mp ((model_eq_some_iff hTW.hkeys).mp h1)
    exact ⟨j, d, cc4_map_get_found hTW hb, hb⟩
  · intro k hout
    refine cc4_map_get_absent hTW ?_
    intro hmem
    exact hout ((hkeys2 k).mp hmem)
  · have heq : keysM T = ((ps.map Prod.fst).dedup : Multiset κ) := by
      refine (Multiset.Nodup.ext hTW.hkeys ?_).mpr ?_
      · rw [Multiset.coe_nodup]
        exact List.nodup_dedup _
      · intro k
        rw [hkeys2 k, Multiset.mem_coe, List.mem_dedup]
    rw [cc4_map_size, hTW.hsize]
    have h2 : Multiset.card (contentsM T) = Multiset.card (keysM T) := by
      rw [keysM, Multiset.card_map]
    rw [h2, heq, Multiset.coe_card]

/-- Witness of C1 at a concrete input (the key 5 is inserted twice). -/
theorem claim_C1_witness :
    ∃ T, cc4_map_insert_seq (fun n : ℕ => n) (3/4 : ℚ) [(5, 50), (6, 60), (5, 51)]
        = some T ∧
      (∀ k e, (([(5, 50), (6, 60), (5, 51)] : List (ℕ × ℕ)).reverse.find?
          (fun p => decide (p.1 = k))).map Prod.snd = some e →
        ∃ j d, cc4_map_get (fun n : ℕ => n) T k = some (some j) ∧
          bkt T j = some (k, e, d)) ∧
      (∀ k, k ∉ ([(5, 50), (6, 60), (5, 51)] : List (ℕ × ℕ)).map Prod.fst →
        cc4_map_get (fun n : ℕ => n) T k = some none) ∧
      cc4_map_size T
        = (([(5, 50), (6, 60), (5, 51)] : List (ℕ × ℕ)).map Prod.fst).dedup.length :=
  claim_C1 (fun n : ℕ => n) (by norm_num) (by norm_num) [(5, 50), (6, 60), (5, 51)]

attribute [local semireducible] Rat.mul Rat.inv Rat.add Rat.sub

/-- The table produced by inserting `5 ↦ 50` into the placeholder (identity
hash, max load 3/4, the growth to capacity 8 allocated with id 7). -/
def exT1 : Table ℕ ℕ :=
  ⟨1, 8, 7, [none, none, none, none, none, some (5, 50, 0), none, none]⟩

/-- `exT1` after further inserting `6 ↦ 60`. -/
def exT12 : Table ℕ ℕ :=
  ⟨2, 8, 7, [none, none, none, none, none, some (5, 50, 0), some (6, 60, 0), none]⟩

theorem exT1_reachable : Reachable (fun n : ℕ => n) (3/4 : ℚ) exT1 :=
  Reachable.ins Reachable.empty
    (show cc4_map_insert (fun n : ℕ => n) (cc4_map_placeholder ℕ ℕ) 50 5 true
        (3/4 : ℚ) true 7 = some (exT1, some 5) by decide)

theorem exT12_reachable : Reachable (fun n : ℕ => n) (3/4 : ℚ) exT12 :=
  Reachable.ins exT1_reachable
    (show cc4_map_insert (fun n : ℕ => n) exT1 60 6 true (3/4 : ℚ) true 9
        = some (exT12, some 6) by decide)

/-- C2: erasing a key present in any reachable table reports `true`; a
subsequent `get` of that key reports "not found", the size drops by exactly
one, and every other stored pair is still retrievable unchanged. -/
theorem claim_C2 {hash : κ → ℕ} {ml : ℚ} (hml0 : 0 < ml) (hml1 : ml ≤ 1)
    {T : Table κ ε} (hR : Reachable hash ml T) {k : κ} {e : ε}
    (hmem : (k, e) ∈ contents T) :
    ∃ Tf, cc4_map_erase hash T k = some (Tf, true) ∧
      cc4_map_get hash Tf k = some none ∧
      Tf.size + 1 = T.size ∧
      ∀ k2 e2, k2 ≠ k → (k2, e2) ∈ contents T →
        ∃ j d, cc4_map_get hash Tf k2 = some (some j) ∧
          bkt Tf j = some (k2, e2, d) := by
  have hW := reachable_wf hml0 hml1 hR
  obtain ⟨j0, d0, hb0⟩ := mem_contents_iff.mp hmem
  obtain ⟨Tf, hfeq, hfW, hfcap, hfid, hfsz, hfcont⟩ := cc4_map_erase_spec_present hW hb0
  have hkeyseq : keysM Tf + {k} = keysM T := by
    rw [keysM, keysM, ← hfcont, Multiset.map_add]
    rfl
  have hknotin : k ∉ keysM Tf := by
    intro hin
    have hcount := Multiset.nodup_iff_count_le_one.mp hW.hkeys k
    rw [← hkeyseq, Multiset.count_add, Multiset.count_singleton_self] at hcount
    have := Multiset.one_le_count_iff_mem.mpr hin
    omega
  refine ⟨Tf, hfeq, cc4_map_get_absent hfW hknotin, hfsz, ?_⟩
  intro k2 e2 hne hmem2
  have hmem2M : (k2, e2) ∈ contentsM T := Multiset.mem_coe.mpr hmem2
  rw [← hfcont, Multiset.mem_add] at hmem2M
  rcases hmem2M with h | h
  · obtain ⟨j, d, hb⟩ := mem_contents_iff.mp (Multiset.mem_coe.mp h)
    exact ⟨j, d, cc4_map_get_found hfW hb, hb⟩
  · exact absurd (congrArg Prod.fst (Multiset.mem_singleton.mp h)) hne

/-- Witness of C2: erasing key 5 from the concrete two-element table. -/
theorem claim_C2_witness :
    ∃ Tf, cc4_map_erase (fun n : ℕ => n) exT12 5 = some (Tf, true) ∧
      cc4_map_get (fun n : ℕ => n) Tf 5 = some none ∧
      Tf.size + 1 = exT12.size ∧
      ∀ k2 e2, k2 ≠ 5 → (k2, e2) ∈ contents exT12 →
        ∃ j d, cc4_map_get (fun n : ℕ => n) Tf k2 = some (some j) ∧
          bkt Tf j = some (k2, e2, d) :=
  claim_C2 (by norm_num) (by norm_num) exT12_reachable
    (show ((5 : ℕ), (50 : ℕ)) ∈ contents exT12 by decide)

/-- C3: a successful insert into any reachable table restores the load-factor
bound `size ≤ capacity * max_load`, growing (exactly when the bound would be
violated, i.e. before any key search) to the least power-of-two capacity of at
least 8 that satisfies it, and keeping the capacity otherwise. -/
theorem claim_C3 {hash : κ → ℕ} {ml : ℚ} (hml0 : 0 < ml) (hml1 : ml ≤ 1)
    {T : Table κ ε} (hR : Reachable hash ml T) (k : κ) (e : ε) (rep : Bool)
    (fid : ℕ) :
    ∃ Tf r, cc4_map_insert hash T e k rep ml true fid = some (Tf, some r) ∧
      (Tf.size : ℚ) ≤ (Tf.cap : ℚ) * ml ∧
      ((T.cap : ℚ) * ml < (T.size : ℚ) + 1 →
        Tf.cap = cc4_map_min_cap_for_n_els (T.size + 1) ml ∧
        8 ≤ Tf.cap ∧ (∃ m, Tf.cap = 2 ^ m) ∧
        ((T.size : ℚ) + 1 ≤ (Tf.cap : ℚ) * ml) ∧
        (∀ c2 : ℕ, 8 ≤ c2 → (∃ m2, c2 = 2 ^ m2) →
          ((T.size : ℚ) + 1 ≤ (c2 : ℚ) * ml) → Tf.cap ≤ c2)) ∧
      (¬ (T.cap : ℚ) * ml < (T.size : ℚ) + 1 → Tf.cap = T.cap) := by
  have hW := reachable_wf hml0 hml1 hR
  obtain ⟨Tf, r, heq, hfW, hgrow, hnogrow, hload, _⟩ :=
    cc4_map_insert_spec hW hml0 hml1 k e rep fid
  refine ⟨Tf, r, heq, hload, ?_, hnogrow⟩
  intro hg
  obtain ⟨⟨m, hmeq⟩, h8, hbound, hminimal⟩ :=
    min_cap_spec hml0 (n := T.size + 1) (by omega)
  have hcap := hgrow hg
  have h3 : ((T.size + 1 : ℕ) : ℚ) = (T.size : ℚ) + 1 := by push_cast; ring
  refine ⟨hcap, by rw [hcap]; exact h8, ⟨m, by rw [hcap]; exact hmeq⟩, ?_, ?_⟩
  · rw [hcap, ← h3]
    exact hbound
  · intro c2 hc2 hc2p hc2b
    rw [hcap]
    refine hminimal c2 hc2 hc2p ?_
    rw [h3]
    exact hc2b

/-- Witness of C3: inserting into the (guard-firing) empty placeholder. -/
theorem claim_C3_witness :
    ∃ Tf r, cc4_map_insert (fun n : ℕ => n) (cc4_map_placeholder ℕ ℕ) 10 1 true
        (3/4 : ℚ) true 7 = some (Tf, some r) ∧
      (Tf.size : ℚ) ≤ (Tf.cap : ℚ) * (3/4 : ℚ) ∧
      (((cc4_map_placeholder ℕ ℕ).cap : ℚ) * (3/4 : ℚ)
          < ((cc4_map_placeholder ℕ ℕ).size : ℚ) + 1 →
        Tf.cap = cc4_map_min_cap_for_n_els ((cc4_map_placeholder ℕ ℕ).size + 1)
            (3/4 : ℚ) ∧
        8 ≤ Tf.cap ∧ (∃ m, Tf.cap = 2 ^ m) ∧
        (((cc4_map_placeholder ℕ ℕ).size : ℚ) + 1 ≤ (Tf.cap : ℚ) * (3/4 : ℚ)) ∧
        (∀ c2 : ℕ, 8 ≤ c2 → (∃ m2, c2 = 2 ^ m2) →
          (((cc4_map_placeholder ℕ ℕ).size : ℚ) + 1 ≤ (c2 : ℚ) * (3/4 : ℚ)) →
            Tf.cap ≤ c2)) ∧
      (¬ ((cc4_map_placeholder ℕ ℕ).cap : ℚ) * (3/4 : ℚ)
          < ((cc4_map_placeholder ℕ ℕ).size : ℚ) + 1 →
        Tf.cap = (cc4_map_placeholder ℕ ℕ).cap) :=
  claim_C3 (by norm_num) (by norm_num) Reachable.empty 1 10 true 7

/-- C4: in any reachable table, an occupied bucket sits `d` slots past its
key's home slot with stored probe length `d + 1`, every slot on the walk from
the home slot to it has stored probe length at least the walking probe
counter (so the lookup loop, which stops at the first slot with a smaller
stored probe length, never stops early), and `get` finds exactly this
bucket. -/
theorem claim_C4 {hash : κ → ℕ} {ml : ℚ} (hml0 : 0 < ml) (hml1 : ml ≤ 1)
    {T : Table κ ε} (hR : Reachable hash ml T) {j : ℕ} {k : κ} {e : ε} {d : ℕ}
    (hj : bkt T j = some (k, e, d)) :
    plenAt T j = d + 1 ∧ d + 1 ≤ T.cap ∧ j = (hash k + d) % T.cap ∧
      (∀ t, t ≤ d → t + 1 ≤ plenAt T ((hash k + t) % T.cap)) ∧
      cc4_map_get hash T k = some (some j) := by
  have hW := reachable_wf hml0 hml1 hR
  obtain ⟨h1, h2⟩ := hW.hhome j k e d hj
  exact ⟨by rw [plenAt, hj, plenOf_some], h1, h2, walk_chain hW hj,
    cc4_map_get_found hW hj⟩

/-- Witness of C4 at bucket 5 of the concrete two-element table. -/
theorem claim_C4_witness :
    plenAt exT12 5 = 0 + 1 ∧ 0 + 1 ≤ exT12.cap ∧
      5 = ((fun n : ℕ => n) 5 + 0) % exT12.cap ∧
      (∀ t, t ≤ 0 → t + 1 ≤ plenAt exT12 (((fun n : ℕ => n) 5 + t) % exT12.cap)) ∧
      cc4_map_get (fun n : ℕ => n) exT12 5 = some (some 5) :=
  claim_C4 (by norm_num) (by norm_num) exT12_reachable
    (show bkt exT12 5 = some (5, 50, 0) by decide)

/-- C5: whenever `size + 1` exceeds `capacity * max_load`, the public insert
runs the growth attempt before any key search, and an allocation failure
makes it report failure (`none` pointer) with the table returned exactly as
it was — for every key, the already-present ones included. -/
theorem claim_C5 {hash : κ → ℕ} {ml : ℚ} (hml0 : 0 < ml) {T : Table κ ε}
    (hguard : (T.cap : ℚ) * ml < (T.size : ℚ) + 1) (k : κ) (e : ε) (rep : Bool)
    (fid : ℕ) :
    cc4_map_insert hash T e k rep ml false fid = some (T, none) :=
  cc4_map_insert_fail hml0 hguard k e rep fid

/-- Witness of C5: with max load 1/8 the concrete two-element table needs
growth; inserting the already-present key 5 with a failing allocator returns
the failure pointer and the untouched table. -/
theorem claim_C5_witness :
    cc4_map_insert (fun n : ℕ => n) exT12 99 5 true (1/8 : ℚ) false 1
        = some (exT12, none) ∧
      (5, 50) ∈ contents exT12 :=
  ⟨claim_C5 (by norm_num)
    (show ((exT12.cap : ℚ)) * (1/8 : ℚ) < (exT12.size : ℚ) + 1 from
      (by norm_num : (((8 : ℕ)) : ℚ) * (1/8 : ℚ) < (((2 : ℕ)) : ℚ) + 1))
    5 99 true 1, by decide⟩

/-- C6: the 64-bit default string hash is FNV-1a with offset basis
0xcbf29ce484222325 and prime 0x100000001b3, but the 32-bit variant is not
FNV-1a: on the one-byte string "a" (0x61) it differs from the 32-bit FNV-1a
hash, because the source swaps the 32-bit offset basis and prime. -/
theorem claim_C6 :
    (∀ s : List ℕ, cc4_hash_c_string_64 s = fnv1a_64 s) ∧
      cc4_hash_c_string_32 [0x61] ≠ fnv1a_32 [0x61] :=
  ⟨cc4_hash_c_string_64_eq_fnv1a, cc4_hash_c_string_32_ne_fnv1a⟩

/-- C7: destroying the concrete one-entry table with element destructor id 2
and key destructor id 1 does return the placeholder, but it applies the
element destructor to the live key and the key destructor to the live element
(the source forwards the two destructors to `cc4_map_clear` in swapped
positions); the trace the claim calls for, `[(1, Sum.inl 5), (2, Sum.inr 50)]`,
is not produced. -/
theorem claim_C7 :
    cc4_map_cleanup exT1 (some 2) (some 1)
        = (cc4_map_placeholder ℕ ℕ, [(2, Sum.inl 5), (1, Sum.inr 50)]) ∧
      (cc4_map_cleanup exT1 (some 2) (some 1)).2 ≠ [(1, Sum.inl 5), (2, Sum.inr 50)] :=
  ⟨by decide, by decide⟩

/-- An allocated capacity-8 table whose entries have all been removed. -/
def exEmptyT : Table ℕ ℕ := ⟨0, 8, 7, List.replicate 8 none⟩

/-- A layout word for 4-byte keys with no padding. -/
def exLayout : Layout := ⟨4, 0, 0, 0⟩

/-- C8: on tables with no occupied bucket, `last` does return the `r_end`
sentinel, and `first` returns the `end` sentinel on the capacity-0
placeholder; but on an allocated empty table `first` returns the value `end`
computes for element size 0 (the `0 /* Dummy */` argument in the source),
which differs from the table's `end` sentinel whenever the element size is
not 0. -/
theorem claim_C8 :
    cc4_map_last_ptr exEmptyT 4 exLayout = cc4_map_r_end_ptr exEmptyT ∧
      cc4_map_last_ptr (cc4_map_placeholder ℕ ℕ) 4 exLayout
        = cc4_map_r_end_ptr (cc4_map_placeholder ℕ ℕ) ∧
      cc4_map_first_ptr (cc4_map_placeholder ℕ ℕ) 4 exLayout
        = cc4_map_end_ptr (cc4_map_placeholder ℕ ℕ) 4 exLayout ∧
      cc4_map_first_ptr exEmptyT 4 exLayout = cc4_map_end_ptr exEmptyT 0 exLayout ∧
      cc4_map_first_ptr exEmptyT 4 exLayout ≠ cc4_map_end_ptr exEmptyT 4 exLayout :=
  ⟨by decide, by decide, by decide, by decide, by decide⟩

/-- `exT1` rehashed to capacity 16 in a fresh allocation with id 3. -/
def exT2 : Table ℕ ℕ :=
  ⟨1, 16, 3, [none, none, none, none, none, some (5, 50, 0), none, none,
    none, none, none, none, none, none, none, none]⟩

/-- Counterexample to C9 as stated: a growing reserve on the concrete
one-entry table moves the table into allocation 3, and both the `r_end` and
`end` sentinels obtained after the rehash differ from those obtained
before. -/
theorem claim_C9_counterexample :
    cc4_map_reserve (fun n : ℕ => n) exT1 7 (3/4 : ℚ) true 3 = some (exT2, true) ∧
      cc4_map_r_end_ptr exT2 ≠ cc4_map_r_end_ptr exT1 ∧
      cc4_map_end_ptr exT2 4 exLayout ≠ cc4_map_end_ptr exT1 4 exLayout :=
  ⟨by decide, by decide, by decide⟩

/-- C9 (amended): a reserve that does not need to change the capacity returns
the table as is, so both sentinels are unchanged; a capacity-changing reserve
moves the table into the allocation the allocator hands back, so both
sentinels point into the new allocation afterwards and differ from the
previously obtained ones whenever that allocation differs from the old
one. -/
theorem claim_C9 {hash : κ → ℕ} {ml : ℚ} (hml0 : 0 < ml) (hml1 : ml ≤ 1)
    {T : Table κ ε} (hR : Reachable hash ml T) (n2 fid el_size : ℕ) (L : Layout) :
    (cc4_map_min_cap_for_n_els n2 ml ≤ T.cap →
      ∀ ok, cc4_map_reserve hash T n2 ml ok fid = some (T, true)) ∧
    (¬ cc4_map_min_cap_for_n_els n2 ml ≤ T.cap →
      ∃ Tf, cc4_map_reserve hash T n2 ml true fid = some (Tf, true) ∧
        cc4_map_r_end_ptr Tf = (fid, 0) ∧
        cc4_map_end_ptr Tf el_size L
          = (fid, cc4_map_hdr_size
              + CC4_BUCKET_SIZE el_size L * cc4_map_min_cap_for_n_els n2 ml) ∧
        (fid ≠ T.allocId →
          cc4_map_r_end_ptr Tf ≠ cc4_map_r_end_ptr T ∧
          cc4_map_end_ptr Tf el_size L ≠ cc4_map_end_ptr T el_size L)) := by
  have hW := reachable_wf hml0 hml1 hR
  constructor
  · intro hle ok
    exact cc4_map_reserve_noop hle ok fid
  · intro hgt
    obtain ⟨Tf, hfeq, hfW, hfcap, hfid, _, _⟩ := cc4_map_reserve_grow hW hml0 hgt fid
    refine ⟨Tf, hfeq, ?_, ?_, ?_⟩
    · rw [cc4_map_r_end_ptr, hfid]
    · rw [cc4_map_end_ptr, cc4_map_el_ptr, hfid, hfcap]
    · intro hne
      constructor
      · rw [cc4_map_r_end_ptr, cc4_map_r_end_ptr, hfid]
        intro h
        exact hne (congrArg Prod.fst h)
      · rw [cc4_map_end_ptr, cc4_map_end_ptr, cc4_map_el_ptr, cc4_map_el_ptr, hfid]
        intro h
        exact hne (congrArg Prod.fst h)

/-- Witness of C9 at the concrete growing reserve of the counterexample. -/
theorem claim_C9_witness :
    (cc4_map_min_cap_for_n_els 7 (3/4 : ℚ) ≤ exT1.cap →
      ∀ ok, cc4_map_reserve (fun n : ℕ => n) exT1 7 (3/4 : ℚ) ok 3
        = some (exT1, true)) ∧
    (¬ cc4_map_min_cap_for_n_els 7 (3/4 : ℚ) ≤ exT1.cap →
      ∃ Tf, cc4_map_reserve (fun n : ℕ => n) exT1 7 (3/4 : ℚ) true 3
          = some (Tf, true) ∧
        cc4_map_r_end_ptr Tf = (3, 0) ∧
        cc4_map_end_ptr Tf 4 exLayout
          = (3, cc4_map_hdr_size
              + CC4_BUCKET_SIZE 4 exLayout * cc4_map_min_cap_for_n_els 7 (3/4 : ℚ)) ∧
        (3 ≠ exT1.allocId →
          cc4_map_r_end_ptr Tf ≠ cc4_map_r_end_ptr exT1 ∧
          cc4_map_end_ptr Tf 4 exLayout ≠ cc4_map_end_ptr exT1 4 exLayout)) :=
  claim_C9 (by norm_num) (by norm_num) exT1_reachable 7 3 4 exLayout

/-- C10: cloning a size-0 source — whatever its capacity — yields the shared
capacity-0 placeholder without consulting the allocator; cloning a non-empty
source succeeds exactly when allocation succeeds, copying the header and
buckets into the fresh allocation, and fails (only then possible) when it
does not. -/
theorem claim_C10 (T : Table κ ε) (ok : Bool) (fid : ℕ) :
    (cc4_map_size T = 0 →
      ∀ (ok2 : Bool) (fid2 : ℕ), cc4_map_init_clone T ok2 fid2
        = some (cc4_map_placeholder κ ε)) ∧
    (cc4_map_size T ≠ 0 → ok = true →
      cc4_map_init_clone T ok fid = some ⟨T.size, T.cap, fid, T.buckets⟩) ∧
    (cc4_map_size T ≠ 0 → ok = false → cc4_map_init_clone T ok fid = none) := by
  refine ⟨?_, ?_, ?_⟩
  · intro h ok2 fid2
    rw [cc4_map_init_clone, if_pos h]
  · intro h hok
    subst hok
    rw [cc4_map_init_clone, if_neg h, if_pos rfl]
  · intro h hok
    subst hok
    rw [cc4_map_init_clone, if_neg h]
    rfl

end Claims

end CC4
